import Mathlib

/-!
# QOIGO: the QOI encoder of `qoi.go`, embedded in Lean

Machine integers are natural numbers with the wrap-around written out:
a `byte` (uint8) is a `Nat` reduced modulo 256, a `uint32` a `Nat` reduced
modulo 2^32, an `int8` an `Int` in -128..127.  The input slice is a
`go_bytes` value, with its length and its capacity; the output buffer is a
list, every store into it being checked against its length.  An
out-of-range index or slice bound is a run-time panic, modelled by `none`
inside the encoder and reported as `Res.panic` by `qoi_encode`.
-/

namespace QOI

/-! ## Machine arithmetic -/

/-- Conversion to uint8: keep the low eight bits. -/
def u8 (n : Nat) : Nat := n % 256

/-- Conversion to uint32: keep the low 32 bits. -/
def u32 (n : Nat) : Nat := n % 4294967296

/-- Subtraction of two uint8 values, wrapping. -/
def sub8 (a b : Nat) : Nat := (a % 256 + 256 - b % 256) % 256

/-- Left shift of a uint8 by a constant: the result type is uint8, so the
bits shifted past bit 7 are lost. -/
def shl8 (a k : Nat) : Nat := (a <<< k) % 256

/-- Conversion of an integer to int8 (two's complement wrap). -/
def int8 (x : Int) : Int := (x + 128) % 256 - 128

/-- Conversion uint8 to int8: `int8(b)` in Go. -/
def int8_of_byte (b : Nat) : Int := int8 (Int.ofNat (b % 256))

/-- Conversion int8 to uint8: `byte(x)` in Go. -/
def byte_of_int8 (x : Int) : Nat := (x % 256).toNat

/-! ## Data model (qoi.go lines 231-283) -/

/-- The image descriptor `qoi_desc`. -/
structure qoi_desc where
  width : Nat
  height : Nat
  channels : Nat
  colorspace : Nat
deriving DecidableEq

/-- The four channel bytes `rgba_t`. -/
structure rgba_t where
  r : Nat
  g : Nat
  b : Nat
  a : Nat
deriving DecidableEq

/-- The pixel `qoi_rgba_t`: in the Go source a struct with two independent
fields, the channels `rgba` and the scalar `v`. -/
structure qoi_rgba_t where
  rgba : rgba_t
  v : Nat
deriving DecidableEq

def QOI_OP_INDEX : Nat := 0x00
def QOI_OP_DIFF : Nat := 0x40
def QOI_OP_LUMA : Nat := 0x80
def QOI_OP_RUN : Nat := 0xc0
def QOI_OP_RGB : Nat := 0xfe
def QOI_OP_RGBA : Nat := 0xff

/-- The hash `QOI_COLOR_HASH`: the products and sums are uint8 operations
(the operands are bytes), the result is then widened to uint32. -/
def QOI_COLOR_HASH (C : qoi_rgba_t) : Nat :=
  u32 (u8 (u8 (u8 (u8 (C.rgba.r * 3) + u8 (C.rgba.g * 5)) + u8 (C.rgba.b * 7)) + u8 (C.rgba.a * 11)))

def QOI_MAGIC : List Nat := [0x71, 0x69, 0x6f, 0x66]

def QOI_HEADER_SIZE : Nat := 14

def QOI_PIXELS_MAX : Nat := 400000000

def qoi_padding : List Nat := [0, 0, 0, 0, 0, 0, 0, 1]

/-- The function `bytes_to_uint32` on a `[4]byte`: every shift and every sum
is a uint8 operation, only the final result is widened to uint32. -/
def bytes_to_uint32 (b0 b1 b2 b3 : Nat) : Nat :=
  u32 (u8 (u8 (u8 (shl8 b0 24 + shl8 b1 16) + shl8 b2 8) + u8 b3))

/-- The function `uint32_to_bytes`: the four bytes of a uint32, most
significant first. -/
def uint32_to_bytes (v : Nat) : List Nat :=
  [u8 ((0xff000000 &&& v) >>> 24), u8 ((0x00ff0000 &&& v) >>> 16),
   u8 ((0x0000ff00 &&& v) >>> 8), u8 (0x000000ff &&& v)]

/-- A Go `[]byte`: `arr` is the backing array from the first element of the
slice up to its capacity, `len` is the length of the slice.  The capacity
`cap(s)` is `arr.length`; the elements at positions `len` and above are not
visible to an index expression but are to a slice expression. -/
structure go_bytes where
  arr : List Nat
  len : Nat
  le : len ≤ arr.length

/-- A slice whose capacity equals its length, such as a slice literal. -/
def lit (l : List Nat) : go_bytes := { arr := l, len := l.length, le := Nat.le_refl _ }

/-- A slice of length `n` (at most 8) and capacity 8 over the array
[1,0,0,0,0,0,0,0], as `make([]byte, 8)[:n]` with the first byte set to 1. -/
def spare_capacity (n : Nat) : go_bytes :=
  { arr := [1, 0, 0, 0, 0, 0, 0, 0], len := min n 8, le := Nat.min_le_right n 8 }

/-- The index expression `s[i]`; panics unless `i < len(s)`. -/
def index_at (s : go_bytes) (i : Nat) : Option Nat :=
  if i < s.len then s.arr[i]? else none

/-- The slice expression `s[lo:hi]`; panics unless `lo <= hi <= cap(s)`.
The result is given by its `hi - lo` elements, which is all that `fromBytes`
reads of it. -/
def slice (s : go_bytes) (lo hi : Nat) : Option (List Nat) :=
  if lo ≤ hi ∧ hi ≤ s.arr.length then some ((s.arr.drop lo).take (hi - lo)) else none

/-- The function `fromBytes`: reads `bytes[0..3]`, sets the scalar through
`bytes_to_uint32` and the channels directly. -/
def fromBytes (bytes : List Nat) : Option qoi_rgba_t := do
  let b0 ← bytes[0]?
  let b1 ← bytes[1]?
  let b2 ← bytes[2]?
  let b3 ← bytes[3]?
  some { rgba := { r := b0, g := b1, b := b2, a := b3 }, v := bytes_to_uint32 b0 b1 b2 b3 }

/-- The function `fromUint32`. -/
def fromUint32 (val : Nat) : qoi_rgba_t :=
  { rgba := { r := u8 ((0xff000000 &&& val) >>> 24), g := u8 ((0x00ff0000 &&& val) >>> 16),
              b := u8 ((0x0000ff00 &&& val) >>> 8), a := u8 (0x000000ff &&& val) },
    v := val }

/-! ## Encoder state and byte output -/

/-- The six chunk kinds of the format. -/
inductive ChunkKind
  | index | diff | luma | run | rgb | rgba
deriving DecidableEq

/-- A chunk as emitted: its kind and the bytes written for it.  The list of
chunks is a ghost record of what the encoder wrote; nothing reads it. -/
structure Chunk where
  kind : ChunkKind
  bytes : List Nat
deriving DecidableEq

/-- The local variables of `qoi_encode` that live across the pixel loop:
the output buffer `bytes`, the cursor `p`, the counter `run`, the pixels
`px_prev` and `px`, the cache `index` (64 slots, addressed by slot number),
and the ghost list `chunks`. -/
structure EncState where
  bytes : List Nat
  p : Nat
  run : Nat
  px_prev : qoi_rgba_t
  px : qoi_rgba_t
  index : Nat → qoi_rgba_t
  chunks : List Chunk

/-- Outcome of a call: `failure` is the nil return, `panic` a run-time
panic, `diverge` a loop that did not end within its fuel. -/
inductive Res (α : Type)
  | failure : Res α
  | panic : Res α
  | diverge : Res α
  | ok : α → Res α
deriving DecidableEq

/-- The assignment `bytes[p] = x`; panics when `p` is not below `len(bytes)`. -/
def write_byte (bytes : List Nat) (p : Nat) (x : Nat) : Option (List Nat) :=
  if p < bytes.length then some (bytes.set p x) else none

/-- The function `qoi_write_32`: four byte writes at the cursor, most
significant byte first; returns the buffer and the advanced cursor. -/
def qoi_write_32 (bytes : List Nat) (p : Nat) (v : Nat) : Option (List Nat × Nat) := do
  let bytes ← write_byte bytes p (u8 ((0xff000000 &&& v) >>> 24))
  let p := p + 1
  let bytes ← write_byte bytes p (u8 ((0x00ff0000 &&& v) >>> 16))
  let p := p + 1
  let bytes ← write_byte bytes p (u8 ((0x0000ff00 &&& v) >>> 8))
  let p := p + 1
  let bytes ← write_byte bytes p (u8 (0x000000ff &&& v))
  let p := p + 1
  some (bytes, p)

/-- The function `qoi_read_32`: four byte reads at the cursor; the shifts
and sums are uint8 operations, only the result is widened. -/
def qoi_read_32 (bytes : List Nat) (p : Nat) : Option (Nat × Nat) := do
  let a ← bytes[p]?
  let p := p + 1
  let b ← bytes[p]?
  let p := p + 1
  let c ← bytes[p]?
  let p := p + 1
  let d ← bytes[p]?
  let p := p + 1
  some (u32 (u8 (u8 (u8 (shl8 a 24 + shl8 b 16) + shl8 c 8) + u8 d)), p)

/-- The statement pair `bytes[p] = x; p++` on the encoder state. -/
def put (st : EncState) (x : Nat) : Option EncState :=
  match write_byte st.bytes st.p x with
  | none => none
  | some bytes => some { st with bytes := bytes, p := st.p + 1 }

/-- Write the bytes of one chunk at the cursor, one `put` each, and note
the chunk in the ghost list. -/
def emit (st : EncState) (k : ChunkKind) (bs : List Nat) : Option EncState :=
  match bs.foldlM put st with
  | none => none
  | some st1 => some { st1 with chunks := st1.chunks ++ [{ kind := k, bytes := bs }] }

/-- The run flush `bytes[p] = QOI_OP_RUN | (run - 1); p++; run = 0`. -/
def flush_run (st : EncState) : Option EncState :=
  match emit st ChunkKind.run [QOI_OP_RUN ||| sub8 st.run 1] with
  | none => none
  | some st1 => some { st1 with run := 0 }

/-- The pixel read at the top of the loop body (lines 404-410): with four
channels the whole pixel comes from `fromBytes` applied to the slice
expression `pixels[px_pos : px_pos+channels]`, with three only the fields
`r`, `g`, `b` of `px` are assigned, from three index expressions. -/
def read_pixel (channels : Nat) (pixels : go_bytes) (px_pos : Nat) (px : qoi_rgba_t) :
    Option qoi_rgba_t :=
  if channels = 4 then do
    let s ← slice pixels px_pos (u32 (px_pos + channels))
    fromBytes s
  else do
    let r ← index_at pixels (u32 (px_pos + 0))
    let g ← index_at pixels (u32 (px_pos + 1))
    let b ← index_at pixels (u32 (px_pos + 2))
    some { px with rgba := { px.rgba with r := r, g := g, b := b } }

/-- The explicit encodings (lines 434-475), chosen after the cache slot has
been overwritten: Diff, Luma or RGB when alpha is unchanged, RGBA
otherwise. -/
def encode_explicit (st : EncState) (px : qoi_rgba_t) : Option EncState :=
  if px.rgba.a = st.px_prev.rgba.a then
    let vr : Int := int8_of_byte (sub8 px.rgba.r st.px_prev.rgba.r)
    let vg : Int := int8_of_byte (sub8 px.rgba.g st.px_prev.rgba.g)
    let vb : Int := int8_of_byte (sub8 px.rgba.b st.px_prev.rgba.b)
    let vg_r : Int := int8 (vr - vg)
    let vg_b : Int := int8 (vb - vg)
    if vr > -3 ∧ vr < 2 ∧ vg > -3 ∧ vg < 2 ∧ vb > -3 ∧ vb < 2 then
      emit st ChunkKind.diff
        [QOI_OP_DIFF ||| byte_of_int8 (int8 (int8 (vr + 2) * 16))
          ||| byte_of_int8 (int8 (int8 (vg + 2) * 4)) ||| byte_of_int8 (int8 (vb + 2))]
    else if vg_r > -9 ∧ vg_r < 8 ∧ vg > -33 ∧ vg < 32 ∧ vg_b > -9 ∧ vg_b < 8 then
      emit st ChunkKind.luma
        [QOI_OP_LUMA ||| byte_of_int8 (int8 (vg + 32)),
         byte_of_int8 (int8 (int8 (vg_r + 8) * 16)) ||| byte_of_int8 (int8 (vg_b + 8))]
    else
      emit st ChunkKind.rgb [QOI_OP_RGB, px.rgba.r, px.rgba.g, px.rgba.b]
  else
    emit st ChunkKind.rgba [QOI_OP_RGBA, px.rgba.r, px.rgba.g, px.rgba.b, px.rgba.a]

/-- The cache lookup (lines 426-476): the slot is `QOI_COLOR_HASH(px) % 64`
(below 64, so the conversion to `byte` changes nothing); an Index chunk
when the scalars agree, otherwise the slot is overwritten and an explicit
encoding follows. -/
def encode_lookup (st : EncState) (px : qoi_rgba_t) : Option EncState :=
  let index_pos := QOI_COLOR_HASH px % 64
  if (st.index index_pos).v = px.v then
    emit st ChunkKind.index [QOI_OP_INDEX ||| index_pos]
  else
    encode_explicit { st with index := fun i => if i = index_pos then px else st.index i } px

/-- One iteration of the pixel loop (lines 404-478). -/
def encode_pixel (channels px_end : Nat) (pixels : go_bytes) (px_pos : Nat) (st : EncState) :
    Option EncState := do
  let px ← read_pixel channels pixels px_pos st.px
  let st := { st with px := px }
  let st ←
    if px.v = st.px_prev.v then
      let st := { st with run := u8 (st.run + 1) }
      if st.run = 62 ∨ px_pos = px_end then flush_run st else some st
    else do
      let st ← if st.run > 0 then flush_run st else some st
      encode_lookup st px
  some { st with px_prev := st.px }

/-- The pixel loop `for px_pos = 0; px_pos < px_len; px_pos += channels`;
`fuel` bounds the number of iterations. -/
def encode_loop (channels px_len px_end : Nat) (pixels : go_bytes) :
    Nat → Nat → EncState → Res EncState
  | 0, px_pos, st => if px_pos < px_len then Res.diverge else Res.ok st
  | fuel + 1, px_pos, st =>
    if px_pos < px_len then
      match encode_pixel channels px_end pixels px_pos st with
      | none => Res.panic
      | some st1 => encode_loop channels px_len px_end pixels fuel (u32 (px_pos + channels)) st1
    else Res.ok st

/-- The guard of `qoi_encode` (lines 364-369); `desc` and `out_len` are
pointers, `none` standing for nil.  The division is reached only when
`width` is not zero. -/
def rejects (data : go_bytes) (desc : Option qoi_desc) (out_len : Option Nat) : Bool :=
  match desc with
  | none => true
  | some d =>
    data.len == 0 || out_len.isNone || d.width == 0 || d.height == 0 ||
    decide (d.channels < 3) || decide (d.channels > 4) || decide (d.colorspace > 1) ||
    decide (d.height ≥ QOI_PIXELS_MAX / d.width)

/-- The state before the header is written: a zeroed buffer of `max_size`
bytes, cursor 0, `run` 0, `px_prev` with channels (0,0,0,255) and scalar 0
(the scalar field is never assigned), `px` a copy of it, a zeroed cache. -/
def init_state (d : qoi_desc) : EncState :=
  let max_size := d.width * d.height * (d.channels + 1) + QOI_HEADER_SIZE + qoi_padding.length
  let px_prev : qoi_rgba_t := { rgba := { r := 0, g := 0, b := 0, a := 255 }, v := 0 }
  { bytes := List.replicate max_size 0, p := 0, run := 0, px_prev := px_prev, px := px_prev,
    index := fun _ => { rgba := { r := 0, g := 0, b := 0, a := 0 }, v := 0 }, chunks := [] }

/-- The header writes (lines 378-384). -/
def write_header (d : qoi_desc) (st : EncState) : Option EncState := do
  let (bytes, p) ← qoi_write_32 st.bytes st.p
    (bytes_to_uint32 (QOI_MAGIC.getD 0 0) (QOI_MAGIC.getD 1 0) (QOI_MAGIC.getD 2 0) (QOI_MAGIC.getD 3 0))
  let (bytes, p) ← qoi_write_32 bytes p d.width
  let (bytes, p) ← qoi_write_32 bytes p d.height
  let st := { st with bytes := bytes, p := p }
  let st ← put st d.channels
  put st d.colorspace

/-- The position bounds of the pixel loop (lines 398-399), in uint32. -/
def px_len_of (d : qoi_desc) : Nat := u32 (u32 (d.width * d.height) * d.channels)

def px_end_of (d : qoi_desc) : Nat := u32 (px_len_of d + 4294967296 - d.channels)

/-- The state after the pixel loop, before the end marker is written. -/
def encode_pixels (data : go_bytes) (d : qoi_desc) : Res EncState :=
  match write_header d (init_state d) with
  | none => Res.panic
  | some st => encode_loop d.channels (px_len_of d) (px_end_of d) data (px_len_of d) 0 st

/-- The function `qoi_encode`, with its full final state. -/
def qoi_encode_state (data : go_bytes) (desc : Option qoi_desc) (out_len : Option Nat) :
    Res EncState :=
  match desc with
  | none => Res.failure
  | some d =>
    if rejects data (some d) out_len then Res.failure
    else
      match encode_pixels data d with
      | Res.ok st =>
        match qoi_padding.foldlM put st with
        | none => Res.panic
        | some st1 => Res.ok st1
      | Res.failure => Res.failure
      | Res.panic => Res.panic
      | Res.diverge => Res.diverge

/-- The function `qoi_encode`: the returned buffer and the value stored in
`*out_len`. -/
def qoi_encode (data : go_bytes) (desc : Option qoi_desc) (out_len : Option Nat) :
    Res (List Nat × Nat) :=
  match qoi_encode_state data desc out_len with
  | Res.ok st => Res.ok (st.bytes, st.p)
  | Res.failure => Res.failure
  | Res.panic => Res.panic
  | Res.diverge => Res.diverge

/-- The chunks a call emitted, in order (the ghost list of the final state). -/
def qoi_encode_chunks (data : go_bytes) (desc : Option qoi_desc) (out_len : Option Nat) :
    Res (List Chunk) :=
  match qoi_encode_state data desc out_len with
  | Res.ok st => Res.ok st.chunks
  | Res.failure => Res.failure
  | Res.panic => Res.panic
  | Res.diverge => Res.diverge

/-- The first `k` iterations of the pixel loop, from position `pos`. -/
def steps_from (channels px_end : Nat) (pixels : go_bytes) : Nat → Nat → EncState → Option EncState
  | 0, _, st => some st
  | k + 1, px_pos, st =>
    match encode_pixel channels px_end pixels px_pos st with
    | none => none
    | some st1 => steps_from channels px_end pixels k (u32 (px_pos + channels)) st1

/-- The encoder state after the header and the first `k` pixels. -/
def state_after (data : go_bytes) (d : qoi_desc) (k : Nat) : Option EncState :=
  match write_header d (init_state d) with
  | none => none
  | some st => steps_from d.channels (px_end_of d) data k 0 st

/-! ## Big-endian integers -/

/-- The big-endian encoding of a 32-bit value: four bytes, most significant
first. -/
def be32 (v : Nat) : List Nat := [v / 16777216 % 256, v / 65536 % 256, v / 256 % 256, v % 256]

/-- The value of four big-endian bytes. -/
def from_be32 (bs : List Nat) : Option Nat :=
  match bs with
  | [b0, b1, b2, b3] => some (b0 * 16777216 + b1 * 65536 + b2 * 256 + b3)
  | _ => none

/-! ## Predicates used in the proofs -/

/-- The number of bytes of the input that the pixel read can reach: the
capacity with four channels, where the pixel is read through a slice
expression, the length otherwise, where it is read through index
expressions. -/
def avail (data : go_bytes) (channels : Nat) : Nat :=
  if channels = 4 then data.arr.length else data.len

/-- The input covers the width*height*channels bytes that the pixel loop
reads. -/
def covers (data : go_bytes) (d : qoi_desc) : Prop :=
  d.width * d.height * d.channels ≤ avail data d.channels

/-- The state `st1` is `st` after `bs` was written at the cursor. -/
def Wrote (bs : List Nat) (st st1 : EncState) : Prop :=
  st.p + bs.length ≤ st.bytes.length ∧
  st1.bytes = st.bytes.take st.p ++ bs ++ st.bytes.drop (st.p + bs.length) ∧
  st1.p = st.p + bs.length ∧ st1.px = st.px ∧ st1.px_prev = st.px_prev

/-- One pending byte when a run is open: the flush it still owes. -/
def pend (st : EncState) : Nat := if st.run > 0 then 1 else 0

/-- The fourteen header bytes that `qoi_encode` writes. -/
def header_bytes (d : qoi_desc) : List Nat :=
  [0, 0, 0, 0x66] ++ uint32_to_bytes d.width ++ uint32_to_bytes d.height ++
    [d.channels, d.colorspace]

/-- The descriptor passes the guard of `qoi_encode`. -/
def Valid (d : qoi_desc) : Prop :=
  0 < d.width ∧ 0 < d.height ∧ (d.channels = 3 ∨ d.channels = 4) ∧ d.colorspace ≤ 1 ∧
    d.height < 400000000 / d.width

/-- Loop invariant after `i` pixels: the buffer keeps its size `M`, the
cursor stays past the header and within `(c+1)` bytes per pixel counting a
pending run flush, `px` and `px_prev` agree, and the header is untouched. -/
def LoopInv (M c : Nat) (H : List Nat) (i : Nat) (st : EncState) : Prop :=
  st.bytes.length = M ∧ 14 ≤ st.p ∧ st.p + pend st ≤ 14 + (c + 1) * i ∧
    st.px = st.px_prev ∧ st.bytes.take 14 = H

/-! ## The decoder of the specification

The repository contains no decoder.  The definitions of this section follow
sections 4.3 and 4.4 of the specification. -/

/-- Modelled from the spec: the hash of section 4.1,
`(r*3 + g*5 + b*7 + a*11) mod 64`, used by the Chunk Decoder (absent from
the repository) to address the Index Cache. -/
def spec_hash (c : rgba_t) : Nat := (c.r * 3 + c.g * 5 + c.b * 7 + c.a * 11) % 64

/-- Modelled from the spec: the running state of the Chunk Decoder (absent
from the repository): the previous pixel and the 64-slot Index Cache. -/
structure DecState where
  prev : rgba_t
  cache : Nat → rgba_t

/-- Modelled from the spec: the initial decoder state (decoder absent from
the repository): previous pixel opaque black, cache of zero pixels. -/
def dec_init : DecState :=
  { prev := { r := 0, g := 0, b := 0, a := 255 },
    cache := fun _ => { r := 0, g := 0, b := 0, a := 0 } }

/-- Modelled from the spec: a pixel decoded from a chunk other than Index
becomes the previous pixel and overwrites its cache slot (decoder absent
from the repository). -/
def dec_store (s : DecState) (c : rgba_t) : DecState :=
  { prev := c, cache := fun i => if i = spec_hash c then c else s.cache i }

/-- Modelled from the spec: the per-chunk dispatch of section 4.3 (decoder
absent from the repository).  The 8-bit tags are checked first, then the top
two bits; `n` is the number of pixels still to produce, `fuel` bounds the
number of chunks; a stream that ends early is a failure. -/
def decode_chunks : Nat → Nat → List Nat → DecState → Option (List rgba_t × List Nat)
  | _, 0, bytes, _ => some ([], bytes)
  | 0, _ + 1, _, _ => none
  | fuel + 1, n + 1, bytes, s =>
    match bytes with
    | [] => none
    | t :: rest =>
      if t = 0xfe then
        match rest with
        | r :: g :: b :: rest1 =>
          let c : rgba_t := { r := r, g := g, b := b, a := s.prev.a }
          (decode_chunks fuel n rest1 (dec_store s c)).map fun o => (c :: o.1, o.2)
        | _ => none
      else if t = 0xff then
        match rest with
        | r :: g :: b :: a :: rest1 =>
          let c : rgba_t := { r := r, g := g, b := b, a := a }
          (decode_chunks fuel n rest1 (dec_store s c)).map fun o => (c :: o.1, o.2)
        | _ => none
      else if t / 64 = 0 then
        let c := s.cache (t % 64)
        (decode_chunks fuel n rest { s with prev := c }).map fun o => (c :: o.1, o.2)
      else if t / 64 = 1 then
        let c : rgba_t :=
          { r := (s.prev.r + t / 16 % 4 + 254) % 256, g := (s.prev.g + t / 4 % 4 + 254) % 256,
            b := (s.prev.b + t % 4 + 254) % 256, a := s.prev.a }
        (decode_chunks fuel n rest (dec_store s c)).map fun o => (c :: o.1, o.2)
      else if t / 64 = 2 then
        match rest with
        | u :: rest1 =>
          let c : rgba_t :=
            { r := (s.prev.r + t % 64 + u / 16 + 216) % 256, g := (s.prev.g + t % 64 + 224) % 256,
              b := (s.prev.b + t % 64 + u % 16 + 216) % 256, a := s.prev.a }
          (decode_chunks fuel n rest1 (dec_store s c)).map fun o => (c :: o.1, o.2)
        | _ => none
      else
        let k := min (t % 64 + 1) (n + 1)
        (decode_chunks fuel (n + 1 - k) rest (dec_store s s.prev)).map
          fun o => (List.replicate k s.prev ++ o.1, o.2)

/-- Modelled from the spec: the output buffer of the decoder (absent from
the repository), `channels` bytes per pixel. -/
def pixel_bytes (channels : Nat) (c : rgba_t) : List Nat :=
  if channels = 4 then [c.r, c.g, c.b, c.a] else [c.r, c.g, c.b]

/-- Modelled from the spec: the Chunk Decoder on the bytes after the header
(decoder absent from the repository): `n` pixels are decoded and written
with `channels` bytes each; also returns the bytes left over. -/
def decode_body (body : List Nat) (n channels : Nat) : Option (List Nat × List Nat) :=
  (decode_chunks body.length n body dec_init).map
    fun o => ((o.1.map (pixel_bytes channels)).flatten, o.2)

/-- Modelled from the spec: the operation `decode` of sections 4.3, 4.4 and 6
(absent from the repository).  The header is parsed big-endian, the magic
constant and the descriptor are validated as the encoder validates them,
the chunks are decoded, and the end marker must follow.  The argument
`channels` is 3, 4, or 0 for the channel count of the stream. -/
def qoi_decode (bytes : List Nat) (channels : Nat) : Option (List Nat × qoi_desc) :=
  match bytes with
  | m0 :: m1 :: m2 :: m3 :: w0 :: w1 :: w2 :: w3 :: h0 :: h1 :: h2 :: h3 :: c :: cs :: body =>
    let d : qoi_desc :=
      { width := w0 * 16777216 + w1 * 65536 + w2 * 256 + w3,
        height := h0 * 16777216 + h1 * 65536 + h2 * 256 + h3,
        channels := c, colorspace := cs }
    if [m0, m1, m2, m3] ≠ QOI_MAGIC then none
    else if d.width = 0 ∨ d.height = 0 ∨ d.channels < 3 ∨ d.channels > 4 ∨ d.colorspace > 1 ∨
        d.height ≥ QOI_PIXELS_MAX / d.width then none
    else if channels ≠ 0 ∧ channels ≠ 3 ∧ channels ≠ 4 then none
    else
      match decode_body body (d.width * d.height) (if channels = 0 then d.channels else channels) with
      | none => none
      | some (pixels, tail) => if tail = qoi_padding then some (pixels, d) else none
  | _ => none

/-! ## The loop body as a function of the pixel read

The definitions of this section restate the body of the pixel loop without
the bounds checks of the byte writes; `encode_pixel_eq_step` proves that a
successful `encode_pixel` computes exactly `step_pure`. -/

/-- The state after the bytes of chunk `c` were written at the cursor and
the chunk was noted. -/
def write_chunk (st : EncState) (c : Chunk) : EncState :=
  { st with
    bytes := st.bytes.take st.p ++ c.bytes ++ st.bytes.drop (st.p + c.bytes.length),
    p := st.p + c.bytes.length,
    chunks := st.chunks ++ [c] }

/-- The Run chunk that a flush writes for the counter value `run`. -/
def run_chunk (run : Nat) : Chunk :=
  { kind := ChunkKind.run, bytes := [QOI_OP_RUN ||| sub8 run 1] }

/-- The chunk that `encode_explicit` writes for `px` after `prev`. -/
def explicit_chunk (prev px : qoi_rgba_t) : Chunk :=
  if px.rgba.a = prev.rgba.a then
    let vr : Int := int8_of_byte (sub8 px.rgba.r prev.rgba.r)
    let vg : Int := int8_of_byte (sub8 px.rgba.g prev.rgba.g)
    let vb : Int := int8_of_byte (sub8 px.rgba.b prev.rgba.b)
    let vg_r : Int := int8 (vr - vg)
    let vg_b : Int := int8 (vb - vg)
    if vr > -3 ∧ vr < 2 ∧ vg > -3 ∧ vg < 2 ∧ vb > -3 ∧ vb < 2 then
      { kind := ChunkKind.diff,
        bytes := [QOI_OP_DIFF ||| byte_of_int8 (int8 (int8 (vr + 2) * 16))
          ||| byte_of_int8 (int8 (int8 (vg + 2) * 4)) ||| byte_of_int8 (int8 (vb + 2))] }
    else if vg_r > -9 ∧ vg_r < 8 ∧ vg > -33 ∧ vg < 32 ∧ vg_b > -9 ∧ vg_b < 8 then
      { kind := ChunkKind.luma,
        bytes := [QOI_OP_LUMA ||| byte_of_int8 (int8 (vg + 32)),
          byte_of_int8 (int8 (int8 (vg_r + 8) * 16)) ||| byte_of_int8 (int8 (vg_b + 8))] }
    else
      { kind := ChunkKind.rgb, bytes := [QOI_OP_RGB, px.rgba.r, px.rgba.g, px.rgba.b] }
  else
    { kind := ChunkKind.rgba, bytes := [QOI_OP_RGBA, px.rgba.r, px.rgba.g, px.rgba.b, px.rgba.a] }

/-- The state after a run flush. -/
def flushed (st : EncState) : EncState :=
  { write_chunk st (run_chunk st.run) with run := 0 }

/-- The cache lookup and what follows it, without bounds checks. -/
def lookup_pure (st : EncState) (px : qoi_rgba_t) : EncState :=
  if (st.index (QOI_COLOR_HASH px % 64)).v = px.v then
    write_chunk st { kind := ChunkKind.index, bytes := [QOI_OP_INDEX ||| QOI_COLOR_HASH px % 64] }
  else
    write_chunk { st with index := fun i => if i = QOI_COLOR_HASH px % 64 then px else st.index i }
      (explicit_chunk st.px_prev px)

/-- One iteration of the pixel loop on the pixel `px` just read, without
bounds checks. -/
def step_pure (px_end px_pos : Nat) (st : EncState) (px : qoi_rgba_t) : EncState :=
  let st1 : EncState :=
    if px.v = st.px_prev.v then
      if u8 (st.run + 1) = 62 ∨ px_pos = px_end then
        flushed { st with px := px, run := u8 (st.run + 1) }
      else { st with px := px, run := u8 (st.run + 1) }
    else
      lookup_pure (if st.run > 0 then flushed { st with px := px } else { st with px := px }) px
  { st1 with px_prev := st1.px }

/-- The chunk that the cache lookup writes for `px`: an Index chunk on a hit,
the explicit encoding otherwise. -/
def lookup_chunk (st : EncState) (px : qoi_rgba_t) : Chunk :=
  if (st.index (QOI_COLOR_HASH px % 64)).v = px.v then
    { kind := ChunkKind.index, bytes := [QOI_OP_INDEX ||| QOI_COLOR_HASH px % 64] }
  else explicit_chunk st.px_prev px

/-- The chunks that one iteration of the pixel loop appends. -/
def step_chunks (px_end px_pos : Nat) (st : EncState) (px : qoi_rgba_t) : List Chunk :=
  if px.v = st.px_prev.v then
    if u8 (st.run + 1) = 62 ∨ px_pos = px_end then [run_chunk (u8 (st.run + 1))] else []
  else
    (if st.run > 0 then [run_chunk st.run] else []) ++ [lookup_chunk st px]

/-- The value of the run counter after one iteration of the pixel loop. -/
def step_run (px_end px_pos : Nat) (st : EncState) (px : qoi_rgba_t) : Nat :=
  if px.v = st.px_prev.v then
    if u8 (st.run + 1) = 62 ∨ px_pos = px_end then 0 else u8 (st.run + 1)
  else 0

/-- The cache after one iteration of the pixel loop. -/
def step_index (st : EncState) (px : qoi_rgba_t) : Nat → qoi_rgba_t :=
  if px.v = st.px_prev.v then st.index
  else if (st.index (QOI_COLOR_HASH px % 64)).v = px.v then st.index
  else fun i => if i = QOI_COLOR_HASH px % 64 then px else st.index i

/-- All the bytes of a list of chunks, in order. -/
def chunk_bytes (l : List Chunk) : List Nat := (l.map fun c => c.bytes).flatten

/-- The buffer consists of the header `H`, the bytes of the chunks emitted
so far, and zeros up to size `M`; the cursor is at the end of the chunks. -/
def BytesInv (H : List Nat) (M : Nat) (st : EncState) : Prop :=
  st.bytes = H ++ chunk_bytes st.chunks ++ List.replicate (M - st.p) 0 ∧
    st.p = H.length + (chunk_bytes st.chunks).length

/-! ## Properties of the chunk sequence -/

/-- The kind a tag byte denotes (format comment, lines 116-121, and the
`QOI_OP` constants): the 8-bit tags are checked first, then the top two
bits. -/
def tag_kind (t : Nat) : ChunkKind :=
  if t = QOI_OP_RGB then ChunkKind.rgb
  else if t = QOI_OP_RGBA then ChunkKind.rgba
  else if t / 64 = 0 then ChunkKind.index
  else if t / 64 = 1 then ChunkKind.diff
  else if t / 64 = 2 then ChunkKind.luma
  else ChunkKind.run

/-- The bytes of a chunk have the length of its kind and start with a byte
in the range of its kind. -/
def WellTagged (ch : Chunk) : Prop :=
  match ch.kind with
  | ChunkKind.index => ∃ b, ch.bytes = [b] ∧ b ≤ 0x3f
  | ChunkKind.diff => ∃ b, ch.bytes = [b] ∧ 0x40 ≤ b ∧ b ≤ 0x7f
  | ChunkKind.luma => ∃ b1 b2, ch.bytes = [b1, b2] ∧ 0x80 ≤ b1 ∧ b1 ≤ 0xbf
  | ChunkKind.run => ∃ b, ch.bytes = [b] ∧ 0xc0 ≤ b ∧ b ≤ 0xfd
  | ChunkKind.rgb => ∃ r g b, ch.bytes = [0xfe, r, g, b]
  | ChunkKind.rgba => ∃ r g b a, ch.bytes = [0xff, r, g, b, a]

/-- The number of pixels a chunk stands for: the run length (low six bits
of the byte, plus one) for a Run chunk, one for every other chunk. -/
def chunk_pixels (c : Chunk) : Nat :=
  match c.kind with
  | ChunkKind.run => c.bytes.headD 0 % 64 + 1
  | _ => 1

/-- The number of pixels a chunk sequence stands for. -/
def covered (l : List Chunk) : Nat := (l.map chunk_pixels).sum

/-- No Index chunk is directly followed by an Index chunk for the same slot. -/
def NoRepeatIdx (l : List Chunk) : Prop :=
  ∀ i b, l[i]? = some { kind := ChunkKind.index, bytes := [b] } →
    l[i + 1]? ≠ some { kind := ChunkKind.index, bytes := [b] }

/-- When the last chunk emitted is an Index chunk for slot `b`, the scalar
of that cache entry is the scalar of the previous pixel. -/
def LastIdx (st : EncState) : Prop :=
  ∀ b, st.chunks[st.chunks.length - 1]? = some { kind := ChunkKind.index, bytes := [b] } →
    (st.index b).v = st.px_prev.v

/-- The invariant of the pixel loop at its head, after `i` of `n` pixels. -/
def TraceInv (n : Nat) (H : List Nat) (M : Nat) (i : Nat) (st : EncState) : Prop :=
  BytesInv H M st ∧ st.px = st.px_prev ∧ st.run < 62 ∧ (i = n → st.run = 0) ∧
    covered st.chunks + st.run = i ∧ (∀ ch ∈ st.chunks, WellTagged ch ∧
      ∃ t rest, ch.bytes = t :: rest ∧ tag_kind t = ch.kind) ∧
    NoRepeatIdx st.chunks ∧ LastIdx st

/-- The state in which the pixel loop starts: the header is written, the
cursor is at 14. -/
def start_state (d : qoi_desc) : EncState :=
  { init_state d with
    bytes := header_bytes d ++ List.replicate (d.width * d.height * (d.channels + 1) + 8) 0,
    p := 14 }

/-- The chunk sequence of `i` pixels that were all counted in runs, flushed
at 62 and, when `i` is the last pixel count `n`, at the end. -/
def run_chunks (n i : Nat) : List Chunk :=
  List.replicate (i / 62) { kind := ChunkKind.run, bytes := [0xfd] } ++
    (if i = n ∧ i % 62 ≠ 0 then [{ kind := ChunkKind.run, bytes := [0xc0 + i % 62 - 1] }] else [])

/-- The invariant of the pixel loop when every pixel so far was counted in
a run: the chunks are `run_chunks`, and the counter holds the pixels not yet
flushed. -/
def RunsInv (n i : Nat) (st : EncState) : Prop :=
  st.px.v = st.px_prev.v ∧ st.chunks = run_chunks n i ∧
    st.run = (if i = n then 0 else i % 62)

/-- The number of iterations of the loop header
`for px_pos = 0; px_pos < px_len; px_pos += channels` started at `px_pos`
(the body assigns none of the three variables); `none` when the loop has not
ended within `fuel` iterations. -/
def loop_count (channels px_len : Nat) : Nat → Nat → Option Nat
  | 0, px_pos => if px_pos < px_len then none else some 0
  | fuel + 1, px_pos =>
    if px_pos < px_len then
      (loop_count channels px_len fuel (u32 (px_pos + channels))).map fun k => k + 1
    else some 0

/-- The packing of four channel bytes into a 32-bit scalar, in the byte
order that `fromUint32` unpacks: `r` in the top byte, `a` in the low byte. -/
def pack (c : rgba_t) : Nat := c.r * 16777216 + c.g * 65536 + c.b * 256 + c.a

/-- The wrapping 8-bit difference `x - y` of two channel values, read as a
signed 8-bit number. -/
def sdiff8 (x y : Nat) : Int := ((x : Int) - (y : Int) + 128) % 256 - 128

/-- The current pixel fits a Diff chunk: the three channel differences to
the previous pixel all lie in [-2, 1]. -/
def fits_diff (prev px : rgba_t) : Prop :=
  (-2 ≤ sdiff8 px.r prev.r ∧ sdiff8 px.r prev.r ≤ 1) ∧
  (-2 ≤ sdiff8 px.g prev.g ∧ sdiff8 px.g prev.g ≤ 1) ∧
  (-2 ≤ sdiff8 px.b prev.b ∧ sdiff8 px.b prev.b ≤ 1)

/-- The current pixel fits a Luma chunk: the green difference lies in
[-32, 31] and the red and blue differences minus the green difference
(wrapping, signed 8-bit) lie in [-8, 7]. -/
def fits_luma (prev px : rgba_t) : Prop :=
  (-32 ≤ sdiff8 px.g prev.g ∧ sdiff8 px.g prev.g ≤ 31) ∧
  (-8 ≤ int8 (sdiff8 px.r prev.r - sdiff8 px.g prev.g) ∧
    int8 (sdiff8 px.r prev.r - sdiff8 px.g prev.g) ≤ 7) ∧
  (-8 ≤ int8 (sdiff8 px.b prev.b - sdiff8 px.g prev.g) ∧
    int8 (sdiff8 px.b prev.b - sdiff8 px.g prev.g) ≤ 7)

/-- The number of bytes of a chunk of each kind. -/
def kind_size (k : ChunkKind) : Nat :=
  match k with
  | ChunkKind.index => 1
  | ChunkKind.diff => 1
  | ChunkKind.luma => 2
  | ChunkKind.run => 1
  | ChunkKind.rgb => 4
  | ChunkKind.rgba => 5

/-! ## Lemmas on byte output -/

theorem put_eq (st : EncState) (x : Nat) (h : st.p < st.bytes.length) :
    put st x = some { st with bytes := st.bytes.set st.p x, p := st.p + 1 } := by
  simp [put, write_byte, h]

theorem puts_spec (bs : List Nat) : ∀ (st : EncState), st.p + bs.length ≤ st.bytes.length →
    bs.foldlM put st = some { st with
      bytes := st.bytes.take st.p ++ bs ++ st.bytes.drop (st.p + bs.length),
      p := st.p + bs.length } := by
  induction bs with
  | nil => intro st _; simp
  | cons x bs ih =>
    intro st h
    simp only [List.length_cons] at h
    have hp : st.p < st.bytes.length := by omega
    rw [List.foldlM_cons, put_eq st x hp]
    simp only [Option.bind_eq_bind, Option.some_bind]
    rw [ih]
    · simp only [List.length_cons, List.length_set]
      congr 1
      have e1 : (st.bytes.set st.p x).take (st.p + 1) = st.bytes.take st.p ++ [x] := by
        rw [List.set_eq_take_append_cons_drop, if_pos hp]
        rw [List.take_append_eq_append_take]
        simp [List.take_take, Nat.min_eq_left (Nat.le_of_lt hp)]
      have e2 : (st.bytes.set st.p x).drop (st.p + 1 + bs.length) =
          st.bytes.drop (st.p + (bs.length + 1)) := by
        rw [List.drop_set_of_lt _ _ (by omega)]
        congr 1; omega
      rw [e1, e2]; simp; omega
    · simp only [List.length_set]; omega

theorem puts_inv (bs : List Nat) : ∀ (st st1 : EncState), bs.foldlM put st = some st1 →
    bs = [] ∨ st.p + bs.length ≤ st.bytes.length := by
  induction bs with
  | nil => intro _ _ _; exact Or.inl rfl
  | cons x bs ih =>
    intro st st1 h
    right
    by_cases hp : st.p < st.bytes.length
    · rw [List.foldlM_cons, put_eq st x hp] at h
      simp only [Option.bind_eq_bind, Option.some_bind] at h
      rcases ih _ _ h with h0 | h0
      · subst h0; simp; omega
      · simp only [List.length_set] at h0; simp only [List.length_cons]; omega
    · simp [List.foldlM_cons, put, write_byte, hp] at h

theorem emit_some (st st1 : EncState) (k : ChunkKind) (bs : List Nat) (hne : bs ≠ [])
    (h : emit st k bs = some st1) :
    Wrote bs st st1 ∧ st1.run = st.run ∧ st1.index = st.index ∧
      st1.chunks = st.chunks ++ [{ kind := k, bytes := bs }] := by
  unfold emit at h
  cases hf : bs.foldlM put st with
  | none => simp [hf] at h
  | some st2 =>
    rcases puts_inv bs st st2 hf with h0 | h0
    · exact absurd h0 hne
    · rw [hf] at h
      rw [puts_spec bs st h0] at hf
      injection hf with hf
      injection h with h
      subst hf; subst h
      exact ⟨⟨h0, rfl, rfl, rfl, rfl⟩, rfl, rfl, rfl⟩

theorem emit_total (st : EncState) (k : ChunkKind) (bs : List Nat)
    (h : st.p + bs.length ≤ st.bytes.length) : ∃ st1, emit st k bs = some st1 := by
  unfold emit
  rw [puts_spec bs st h]
  exact ⟨_, rfl⟩

theorem Wrote.length_eq {bs : List Nat} {st st1 : EncState} (h : Wrote bs st st1) :
    st1.bytes.length = st.bytes.length := by
  obtain ⟨h0, h1, -⟩ := h
  rw [h1]
  simp only [List.length_append, List.length_take, List.length_drop]
  omega

theorem Wrote.take_eq {bs : List Nat} {st st1 : EncState} (h : Wrote bs st st1) (m : Nat)
    (hm : m ≤ st.p) : st1.bytes.take m = st.bytes.take m := by
  obtain ⟨h0, h1, -⟩ := h
  rw [h1, List.append_assoc, List.take_append_of_le_length, List.take_take, Nat.min_eq_left hm]
  simp only [List.length_take]; omega

theorem flush_run_some (st st1 : EncState) (h : flush_run st = some st1) :
    Wrote [QOI_OP_RUN ||| sub8 st.run 1] st st1 ∧ st1.run = 0 := by
  unfold flush_run at h
  cases he : emit st ChunkKind.run [QOI_OP_RUN ||| sub8 st.run 1] with
  | none => simp [he] at h
  | some st2 =>
    rw [he] at h
    injection h with h
    subst h
    obtain ⟨hw, -⟩ := emit_some st st2 _ _ (by simp) he
    exact ⟨hw, rfl⟩

theorem flush_run_total (st : EncState) (h : st.p + 1 ≤ st.bytes.length) :
    ∃ st1, flush_run st = some st1 := by
  unfold flush_run
  obtain ⟨st2, h2⟩ := emit_total st ChunkKind.run [QOI_OP_RUN ||| sub8 st.run 1] (by simpa using h)
  rw [h2]
  exact ⟨_, rfl⟩

theorem encode_explicit_some (st st1 : EncState) (px : qoi_rgba_t)
    (h : encode_explicit st px = some st1) :
    ∃ bs, Wrote bs st st1 ∧ 1 ≤ bs.length ∧ bs.length ≤ 5 ∧ st1.run = st.run ∧
      (px.rgba.a = st.px_prev.rgba.a → bs.length ≤ 4) := by
  unfold encode_explicit at h
  split at h
  · simp only at h
    split at h
    · obtain ⟨hw, hr, -⟩ := emit_some _ _ _ _ (by simp) h
      exact ⟨_, hw, by simp, by simp, hr, by simp⟩
    · split at h
      · obtain ⟨hw, hr, -⟩ := emit_some _ _ _ _ (by simp) h
        exact ⟨_, hw, by simp, by simp, hr, by simp⟩
      · obtain ⟨hw, hr, -⟩ := emit_some _ _ _ _ (by simp) h
        exact ⟨_, hw, by simp, by simp, hr, by simp⟩
  · rename_i hne
    obtain ⟨hw, hr, -⟩ := emit_some _ _ _ _ (by simp) h
    exact ⟨_, hw, by simp, by simp, hr, fun e => absurd e hne⟩

theorem encode_explicit_total (st : EncState) (px : qoi_rgba_t)
    (h : st.p + 5 ≤ st.bytes.length) : ∃ st1, encode_explicit st px = some st1 := by
  unfold encode_explicit
  split
  · simp only
    split
    · exact emit_total _ _ _ (by simp only [List.length_cons, List.length_nil]; omega)
    · split
      · exact emit_total _ _ _ (by simp only [List.length_cons, List.length_nil]; omega)
      · exact emit_total _ _ _ (by simp only [List.length_cons, List.length_nil]; omega)
  · exact emit_total _ _ _ (by simp only [List.length_cons, List.length_nil]; omega)

theorem encode_lookup_some (st st1 : EncState) (px : qoi_rgba_t)
    (h : encode_lookup st px = some st1) :
    ∃ bs, Wrote bs st st1 ∧ 1 ≤ bs.length ∧ bs.length ≤ 5 ∧ st1.run = st.run ∧
      (px.rgba.a = st.px_prev.rgba.a → bs.length ≤ 4) := by
  unfold encode_lookup at h
  simp only at h
  split at h
  · obtain ⟨hw, hr, -⟩ := emit_some _ _ _ _ (by simp) h
    exact ⟨_, hw, by simp, by simp, hr, by simp⟩
  · obtain ⟨bs, hw, h1, h5, hr, ha⟩ := encode_explicit_some _ _ _ h
    exact ⟨bs, hw, h1, h5, hr, ha⟩

theorem encode_lookup_total (st : EncState) (px : qoi_rgba_t)
    (h : st.p + 5 ≤ st.bytes.length) : ∃ st1, encode_lookup st px = some st1 := by
  unfold encode_lookup
  simp only
  split
  · exact emit_total _ _ _ (by simp only [List.length_cons, List.length_nil]; omega)
  · exact encode_explicit_total _ _ (by simpa using h)

theorem read_pixel_keeps (c : Nat) (data : go_bytes) (pos : Nat) (px px1 : qoi_rgba_t)
    (hc : c ≠ 4) (h : read_pixel c data pos px = some px1) :
    px1.v = px.v ∧ px1.rgba.a = px.rgba.a := by
  unfold read_pixel at h
  rw [if_neg hc] at h
  simp only [Nat.add_zero] at h
  cases h0 : index_at data (u32 pos) with
  | none => simp [h0] at h
  | some r =>
    cases h1 : index_at data (u32 (pos + 1)) with
    | none => simp [h0, h1] at h
    | some g =>
      cases h2 : index_at data (u32 (pos + 2)) with
      | none => simp [h0, h1, h2] at h
      | some b =>
        simp [h0, h1, h2] at h
        subst h
        exact ⟨rfl, rfl⟩

theorem fromBytes_total (s : List Nat) (h : s.length = 4) : ∃ px, fromBytes s = some px := by
  match s, h with
  | [b0, b1, b2, b3], _ => exact ⟨_, rfl⟩

theorem len_le_avail (data : go_bytes) (c : Nat) : data.len ≤ avail data c := by
  unfold avail
  split
  · exact data.le
  · exact Nat.le_refl _

theorem index_at_some (data : go_bytes) (i : Nat) (h : i < data.len) :
    ∃ x, index_at data i = some x := by
  unfold index_at
  have hle := data.le
  rw [if_pos h, List.getElem?_eq_getElem (by omega : i < data.arr.length)]
  exact ⟨_, rfl⟩

theorem read_pixel_total (c : Nat) (data : go_bytes) (pos : Nat) (px : qoi_rgba_t)
    (hc : c = 3 ∨ c = 4) (hlen : pos + c ≤ avail data c) (hw : pos + c < 4294967296) :
    ∃ px1, read_pixel c data pos px = some px1 := by
  unfold read_pixel
  rcases hc with hc | hc
  · subst hc
    have hav : avail data 3 = data.len := by unfold avail; rw [if_neg (by decide)]
    rw [hav] at hlen
    have e0 : u32 (pos + 0) = pos := by unfold u32; omega
    have e1 : u32 (pos + 1) = pos + 1 := by unfold u32; omega
    have e2 : u32 (pos + 2) = pos + 2 := by unfold u32; omega
    rw [if_neg (by decide), e0, e1, e2]
    obtain ⟨r, hr⟩ := index_at_some data pos (by omega)
    obtain ⟨g, hg⟩ := index_at_some data (pos + 1) (by omega)
    obtain ⟨b, hb⟩ := index_at_some data (pos + 2) (by omega)
    rw [hr, hg, hb]
    exact ⟨_, rfl⟩
  · subst hc
    have hav : avail data 4 = data.arr.length := by unfold avail; rw [if_pos rfl]
    rw [hav] at hlen
    have e4 : u32 (pos + 4) = pos + 4 := by unfold u32; omega
    rw [if_pos rfl, e4]
    unfold slice
    rw [if_pos ⟨by omega, hlen⟩]
    simp only [Option.bind_eq_bind, Option.some_bind]
    apply fromBytes_total
    simp only [List.length_take, List.length_drop]
    omega

theorem encode_pixel_spec (c px_end : Nat) (data : go_bytes) (pos : Nat) (st st1 : EncState)
    (h : encode_pixel c px_end data pos st = some st1) (hv : c ≠ 4 → st.px.v = st.px_prev.v) :
    st1.bytes.length = st.bytes.length ∧ st.p ≤ st1.p ∧
    (∀ m, m ≤ st.p → st1.bytes.take m = st.bytes.take m) ∧ st1.px = st1.px_prev ∧
    st1.p + pend st1 ≤ st.p + pend st + (if c = 4 then 5 else 1) := by
  unfold encode_pixel at h
  cases hr : read_pixel c data pos st.px with
  | none => simp [hr] at h
  | some px =>
    simp only [hr, Option.bind_eq_bind, Option.some_bind] at h
    by_cases hrun : px.v = st.px_prev.v
    · simp only [hrun, if_true] at h
      split at h
      · cases hf : flush_run { st with px := px, run := u8 (st.run + 1) } with
        | none => simp [hf] at h
        | some st2 =>
          simp only [hf, Option.some_bind, Option.some.injEq] at h
          obtain ⟨hw, hr0⟩ := flush_run_some _ _ hf
          have hl := hw.length_eq
          have ht := hw.take_eq
          obtain ⟨-, -, hp, hpx, hpp⟩ := hw
          subst h
          simp only [List.length_cons, List.length_nil] at hp
          dsimp only at hl ht hp hpx hpp
          refine ⟨hl, ?_, ht, rfl, ?_⟩
          · show st.p ≤ st2.p
            omega
          · show st2.p + pend { st2 with px_prev := st2.px } ≤ _
            simp only [pend, hr0, hp]
            split_ifs <;> omega
      · simp only [Option.some_bind, Option.some.injEq] at h
        subst h
        refine ⟨rfl, Nat.le_refl _, fun _ _ => rfl, rfl, ?_⟩
        simp only [pend]
        split_ifs <;> omega
    · have hc4 : c = 4 := by
        by_contra hc
        have := read_pixel_keeps c data pos st.px px hc hr
        exact hrun (this.1.trans (hv hc))
      simp only [hrun, if_false, hc4, if_true] at h ⊢
      by_cases hrun0 : st.run > 0
      · simp only [hrun0, if_true] at h
        cases hf : flush_run { st with px := px } with
        | none => simp [hf] at h
        | some st2 =>
          simp only [hf, Option.some_bind] at h
          cases hl : encode_lookup st2 px with
          | none => simp [hl] at h
          | some st3 =>
            simp only [hl, Option.some_bind, Option.some.injEq] at h
            subst h
            obtain ⟨hw, hr0⟩ := flush_run_some _ _ hf
            obtain ⟨bs, hw2, h1, h5, hr2, -⟩ := encode_lookup_some _ _ _ hl
            have hl1 := hw.length_eq
            have ht1 := hw.take_eq
            have hl2 := hw2.length_eq
            have ht2 := hw2.take_eq
            obtain ⟨-, -, hp, -, -⟩ := hw
            obtain ⟨-, -, hp2, -, -⟩ := hw2
            dsimp only at hl1 ht1 hp
            simp only [List.length_cons, List.length_nil] at hp
            refine ⟨hl2.trans hl1, ?_, ?_, rfl, ?_⟩
            · show st.p ≤ st3.p
              omega
            · intro m hm
              show st3.bytes.take m = st.bytes.take m
              rw [ht2 m (by omega), ht1 m hm]
            · show st3.p + pend { st3 with px_prev := st3.px } ≤ _
              simp only [pend, hr2, hr0, hrun0, if_true]
              split_ifs <;> omega
      · simp only [hrun0, if_false, Option.some_bind] at h
        cases hl : encode_lookup { st with px := px } px with
        | none => simp [hl] at h
        | some st3 =>
          simp only [hl, Option.some_bind, Option.some.injEq] at h
          subst h
          obtain ⟨bs, hw2, h1, h5, hr2, -⟩ := encode_lookup_some _ _ _ hl
          have hl2 := hw2.length_eq
          have ht2 := hw2.take_eq
          obtain ⟨-, -, hp2, -, -⟩ := hw2
          dsimp only at hl2 ht2 hp2 hr2
          refine ⟨hl2, ?_, ht2, rfl, ?_⟩
          · show st.p ≤ st3.p
            omega
          · show st3.p + pend { st3 with px_prev := st3.px } ≤ _
            simp only [pend, hr2]
            rw [if_neg hrun0]
            omega

theorem encode_pixel_total (c px_end : Nat) (data : go_bytes) (pos : Nat) (st : EncState)
    (hc : c = 3 ∨ c = 4) (hlen : pos + c ≤ avail data c) (hw : pos + c < 4294967296)
    (hp : st.p + 6 ≤ st.bytes.length) : ∃ st1, encode_pixel c px_end data pos st = some st1 := by
  obtain ⟨px, hr⟩ := read_pixel_total c data pos st.px hc hlen hw
  unfold encode_pixel
  simp only [hr, Option.bind_eq_bind, Option.some_bind]
  by_cases hrun : px.v = st.px_prev.v
  · simp only [hrun, if_true]
    split
    · obtain ⟨st2, h2⟩ := flush_run_total { st with px := px, run := u8 (st.run + 1) }
        (by show st.p + 1 ≤ st.bytes.length; omega)
      rw [h2]; exact ⟨_, rfl⟩
    · exact ⟨_, rfl⟩
  · simp only [hrun, if_false]
    by_cases hrun0 : st.run > 0
    · simp only [hrun0, if_true]
      obtain ⟨st2, h2⟩ := flush_run_total { st with px := px }
        (by show st.p + 1 ≤ st.bytes.length; omega)
      obtain ⟨hw2, -⟩ := flush_run_some _ _ h2
      have hl := hw2.length_eq
      obtain ⟨-, -, hp2, -, -⟩ := hw2
      dsimp only at hl hp2
      simp only [List.length_cons, List.length_nil] at hp2
      obtain ⟨st3, h3⟩ := encode_lookup_total st2 px (by omega)
      rw [h2]; simp only [Option.some_bind]; rw [h3]; exact ⟨_, rfl⟩
    · simp only [hrun0, if_false, Option.some_bind]
      obtain ⟨st3, h3⟩ := encode_lookup_total { st with px := px } px
        (by show st.p + 5 ≤ st.bytes.length; omega)
      rw [h3]; exact ⟨_, rfl⟩

/-- Partial-correctness rule for the pixel loop: a property kept by every
successful iteration holds of the state the loop ends in. -/
theorem encode_loop_keeps (Inv : EncState → Prop) (c px_len px_end : Nat) (data : go_bytes)
    (hstep : ∀ pos st st1, Inv st → encode_pixel c px_end data pos st = some st1 → Inv st1) :
    ∀ (fuel pos : Nat) (st st1 : EncState), Inv st →
      encode_loop c px_len px_end data fuel pos st = Res.ok st1 → Inv st1 := by
  intro fuel
  induction fuel with
  | zero =>
    intro pos st st1 hi h
    unfold encode_loop at h
    split at h
    · cases h
    · injection h with h; subst h; exact hi
  | succ fuel ih =>
    intro pos st st1 hi h
    unfold encode_loop at h
    split at h
    · cases hs : encode_pixel c px_end data pos st with
      | none => rw [hs] at h; cases h
      | some st2 =>
        rw [hs] at h
        exact ih _ _ _ (hstep pos st st2 hi hs) h
    · injection h with h; subst h; exact hi

/-- Total-correctness rule for the pixel loop over `n` pixels of `c` bytes:
when every iteration succeeds and re-establishes the invariant, the loop
ends within `fuel` iterations in a state satisfying it. -/
theorem encode_loop_total (Inv : Nat → EncState → Prop) (c n px_end : Nat) (data : go_bytes)
    (hc : 0 < c) (hn : n * c < 4294967296)
    (hstep : ∀ i st, i < n → Inv i st →
      ∃ st1, encode_pixel c px_end data (i * c) st = some st1 ∧ Inv (i + 1) st1) :
    ∀ (fuel i : Nat) (st : EncState), i ≤ n → n ≤ i + fuel → Inv i st →
      ∃ st1, encode_loop c (n * c) px_end data fuel (i * c) st = Res.ok st1 ∧ Inv n st1 := by
  intro fuel
  induction fuel with
  | zero =>
    intro i st hi hf hinv
    have : i = n := by omega
    subst this
    exact ⟨st, by simp [encode_loop], hinv⟩
  | succ fuel ih =>
    intro i st hi hf hinv
    unfold encode_loop
    by_cases hlt : i < n
    · rw [if_pos (Nat.mul_lt_mul_of_pos_right hlt hc)]
      obtain ⟨st1, hs, hinv1⟩ := hstep i st hlt hinv
      rw [hs]
      have hle : (i + 1) * c ≤ n * c := Nat.mul_le_mul_right c hlt
      have e : u32 (i * c + c) = (i + 1) * c := by
        unfold u32
        rw [Nat.succ_mul]
        rw [Nat.succ_mul] at hle
        omega
      simp only [e]
      exact ih (i + 1) st1 hlt (by omega) hinv1
    · have : i = n := by omega
      subst this
      rw [if_neg (Nat.lt_irrefl _)]
      exact ⟨st, rfl, hinv⟩

theorem write_header_eq (d : qoi_desc) :
    write_header d (init_state d) = some { init_state d with
      bytes := header_bytes d ++ List.replicate (d.width * d.height * (d.channels + 1) + 8) 0,
      p := 14 } := by
  have e : List.replicate
      (d.width * d.height * (d.channels + 1) + QOI_HEADER_SIZE + qoi_padding.length) 0 =
      [0, 0, 0, 0, 0, 0, 0, 0, 0, 0, 0, 0, 0, 0] ++
        List.replicate (d.width * d.height * (d.channels + 1) + 8) 0 := by
    have : d.width * d.height * (d.channels + 1) + QOI_HEADER_SIZE + qoi_padding.length =
        (d.width * d.height * (d.channels + 1) + 8) + 14 := by
      simp [QOI_HEADER_SIZE, qoi_padding]
    rw [this]
    simp [List.replicate_succ]
  unfold write_header init_state
  simp only [e]
  simp [qoi_write_32, write_byte, put, header_bytes, uint32_to_bytes, QOI_MAGIC,
    bytes_to_uint32, shl8, u8, u32]
  decide

theorem rejects_eq_false_iff (data : go_bytes) (d : qoi_desc) (out_len : Option Nat) :
    rejects data (some d) out_len = false ↔ data.len ≠ 0 ∧ out_len ≠ none ∧ Valid d := by
  unfold rejects Valid QOI_PIXELS_MAX
  simp only [Bool.or_eq_false_iff, decide_eq_false_iff_not, beq_eq_false_iff_ne, ne_eq,
    Option.isNone_eq_false_iff, Option.isSome_iff_ne_none]
  constructor
  · rintro ⟨⟨⟨⟨⟨⟨⟨h1, h2⟩, h3⟩, h4⟩, h5⟩, h6⟩, h7⟩, h8⟩
    exact ⟨h1, h2, by omega, by omega, by omega, by omega, by omega⟩
  · rintro ⟨h1, h2, h3, h4, h5, h6, h7⟩
    exact ⟨⟨⟨⟨⟨⟨⟨h1, h2⟩, by omega⟩, by omega⟩, by omega⟩, by omega⟩, by omega⟩, by omega⟩

theorem Valid.pixels_lt {d : qoi_desc} (h : Valid d) : d.width * d.height < 400000000 := by
  obtain ⟨hw, -, -, -, hh⟩ := h
  have h1 : (d.height + 1) * d.width ≤ 400000000 := (Nat.le_div_iff_mul_le hw).mp hh
  rw [Nat.succ_mul] at h1
  rw [Nat.mul_comm]
  omega

theorem px_len_of_eq {d : qoi_desc} (h : Valid d) :
    px_len_of d = d.width * d.height * d.channels := by
  have hn := h.pixels_lt
  obtain ⟨-, -, hc, -, -⟩ := h
  unfold px_len_of u32
  generalize d.width * d.height = n at hn ⊢
  rcases hc with hc | hc <;> rw [hc] <;> omega

/-- One iteration of the pixel loop succeeds and keeps the loop invariant
when the input reaches to the end of its pixel. -/
theorem loop_step_ok (data : go_bytes) (c px_end n : Nat) (H : List Nat)
    (hc : c = 3 ∨ c = 4) (hn : n < 400000000) (i : Nat) (st : EncState) (hi : i < n)
    (hav : (i + 1) * c ≤ avail data c) (hinv : LoopInv (n * (c + 1) + 22) c H i st) :
    ∃ st1, encode_pixel c px_end data (i * c) st = some st1 ∧
      LoopInv (n * (c + 1) + 22) c H (i + 1) st1 := by
  obtain ⟨hM, h14, hp, hpx, hH⟩ := hinv
  have hle : (i + 1) * c ≤ n * c := Nat.mul_le_mul_right _ hi
  rw [Nat.succ_mul] at hle hav
  have hp6 : st.p + 6 ≤ st.bytes.length := by
    rw [hM]
    rcases hc with hc | hc <;> rw [hc] at hp ⊢ <;> omega
  have hnc : n * c < 4294967296 := by
    rcases hc with hc | hc <;> rw [hc] <;> omega
  obtain ⟨st1, hs⟩ := encode_pixel_total c px_end data (i * c) st hc hav (by omega) hp6
  obtain ⟨sl, sp, st14, spx, sg⟩ := encode_pixel_spec _ _ _ _ _ _ hs (fun _ => by rw [hpx])
  refine ⟨st1, hs, sl.trans hM, by omega, ?_, spx, (st14 14 h14).trans hH⟩
  rcases hc with hc | hc <;> rw [hc] at hp sg ⊢ <;> simp at sg <;> omega

theorem encode_pixels_ok (data : go_bytes) (d : qoi_desc) (hv : Valid d)
    (hlen : covers data d) :
    ∃ st, encode_pixels data d = Res.ok st ∧
      LoopInv (d.width * d.height * (d.channels + 1) + 22) d.channels (header_bytes d)
        (d.width * d.height) st := by
  have hn := hv.pixels_lt
  have hpl := px_len_of_eq hv
  obtain ⟨hw0, hh0, hc, -, -⟩ := hv
  unfold covers at hlen
  unfold encode_pixels
  rw [write_header_eq, hpl]
  simp only
  generalize hN : d.width * d.height = n at hn hlen ⊢
  have hc0 : 0 < d.channels := by omega
  have hnc : n * d.channels < 4294967296 := by
    rcases hc with hc | hc <;> rw [hc] <;> omega
  have hfuel : n ≤ 0 + n * d.channels := by
    rcases hc with hc | hc <;> rw [hc] <;> omega
  have hstep : ∀ i st, i < n →
      LoopInv (n * (d.channels + 1) + 22) d.channels (header_bytes d) i st →
      ∃ st1, encode_pixel d.channels (px_end_of d) data (i * d.channels) st = some st1 ∧
        LoopInv (n * (d.channels + 1) + 22) d.channels (header_bytes d) (i + 1) st1 := by
    intro i st hi hinv
    have hle : (i + 1) * d.channels ≤ n * d.channels := Nat.mul_le_mul_right _ hi
    exact loop_step_ok data d.channels (px_end_of d) n (header_bytes d) hc hn i st hi
      (Nat.le_trans hle hlen) hinv
  generalize hst0 : ({ init_state d with
      bytes := header_bytes d ++ List.replicate (n * (d.channels + 1) + 8) 0,
      p := 14 } : EncState) = st0
  have hinit : LoopInv (n * (d.channels + 1) + 22) d.channels (header_bytes d) 0 st0 := by
    subst hst0
    refine ⟨?_, Nat.le_refl _, ?_, rfl, ?_⟩
    · simp [header_bytes, uint32_to_bytes]
    · simp [pend, init_state]
    · simp [header_bytes, uint32_to_bytes]
  have key := encode_loop_total
    (LoopInv (n * (d.channels + 1) + 22) d.channels (header_bytes d))
    d.channels n (px_end_of d) data hc0 hnc hstep (n * d.channels) 0 st0 (Nat.zero_le n) hfuel
    hinit
  rw [Nat.zero_mul] at key
  exact key

theorem encode_loop_ne_failure (c px_len px_end : Nat) (data : go_bytes) :
    ∀ (fuel pos : Nat) (st : EncState),
      encode_loop c px_len px_end data fuel pos st ≠ Res.failure := by
  intro fuel
  induction fuel with
  | zero => intro pos st; unfold encode_loop; split <;> simp
  | succ fuel ih =>
    intro pos st
    unfold encode_loop
    split
    · cases encode_pixel c px_end data pos st with
      | none => simp
      | some st1 => exact ih _ _
    · simp

theorem encode_pixels_keeps (data : go_bytes) (d : qoi_desc) (st : EncState)
    (h : encode_pixels data d = Res.ok st) :
    st.bytes.length = d.width * d.height * (d.channels + 1) + 22 ∧ 14 ≤ st.p ∧
      st.bytes.take 14 = header_bytes d := by
  unfold encode_pixels at h
  rw [write_header_eq] at h
  simp only at h
  have key := encode_loop_keeps
    (fun s => s.bytes.length = d.width * d.height * (d.channels + 1) + 22 ∧ 14 ≤ s.p ∧
      s.bytes.take 14 = header_bytes d ∧ s.px = s.px_prev)
    d.channels (px_len_of d) (px_end_of d) data ?_ _ _ _ _ ?_ h
  · exact ⟨key.1, key.2.1, key.2.2.1⟩
  · intro pos s s1 hinv hs
    obtain ⟨hM, h14, hH, hpx⟩ := hinv
    obtain ⟨sl, sp, st14, spx, -⟩ := encode_pixel_spec _ _ _ _ _ _ hs (fun _ => by rw [hpx])
    exact ⟨sl.trans hM, by omega, (st14 14 h14).trans hH, spx⟩
  · refine ⟨?_, Nat.le_refl _, ?_, rfl⟩
    · simp [header_bytes, uint32_to_bytes]
    · simp [header_bytes, uint32_to_bytes]

/-- What a successful call is made of: a present descriptor that passes the
guard, a pixel loop ending in some state `st`, and the end marker written at
the cursor of `st`. -/
theorem qoi_encode_ok (data : go_bytes) (desc : Option qoi_desc) (out_len : Option Nat)
    (bytes : List Nat) (L : Nat) (h : qoi_encode data desc out_len = Res.ok (bytes, L)) :
    ∃ d st, desc = some d ∧ rejects data (some d) out_len = false ∧
      encode_pixels data d = Res.ok st ∧ st.p + 8 ≤ st.bytes.length ∧
      bytes = st.bytes.take st.p ++ qoi_padding ++ st.bytes.drop (st.p + 8) ∧ L = st.p + 8 := by
  unfold qoi_encode qoi_encode_state at h
  cases desc with
  | none => simp at h
  | some d =>
    simp only at h
    cases hr : rejects data (some d) out_len with
    | true => simp [hr] at h
    | false =>
      simp only [hr] at h
      cases hp : encode_pixels data d with
      | failure => simp [hp] at h
      | panic => simp [hp] at h
      | diverge => simp [hp] at h
      | ok st =>
        simp only [hp] at h
        cases hf : qoi_padding.foldlM put st with
        | none => simp [hf] at h
        | some st1 =>
          simp only [hf, Bool.false_eq_true, if_false, Res.ok.injEq, Prod.mk.injEq] at h
          rcases puts_inv _ _ _ hf with h0 | h0
          · simp [qoi_padding] at h0
          · rw [puts_spec _ _ h0] at hf
            injection hf with hf
            subst hf
            refine ⟨d, st, rfl, hr, hp, ?_, h.1.symm, h.2.symm⟩
            simpa [qoi_padding] using h0

/-- Conversely, a valid call whose pixel loop ends with room for the end
marker returns. -/
theorem qoi_encode_of_pixels (data : go_bytes) (d : qoi_desc) (out_len : Option Nat)
    (st : EncState) (hr : rejects data (some d) out_len = false)
    (hp : encode_pixels data d = Res.ok st) (h8 : st.p + 8 ≤ st.bytes.length) :
    qoi_encode data (some d) out_len =
      Res.ok (st.bytes.take st.p ++ qoi_padding ++ st.bytes.drop (st.p + 8), st.p + 8) := by
  unfold qoi_encode qoi_encode_state
  simp only [hr, hp, Bool.false_eq_true, if_false]
  rw [puts_spec qoi_padding st (by simpa [qoi_padding] using h8)]
  simp [qoi_padding]

theorem qoi_encode_total (data : go_bytes) (d : qoi_desc) (out_len : Option Nat)
    (hv : Valid d) (ho : out_len ≠ none) (hne : data.len ≠ 0) (hlen : covers data d) :
    ∃ bytes L, qoi_encode data (some d) out_len = Res.ok (bytes, L) ∧
      bytes.length = d.width * d.height * (d.channels + 1) + 14 + 8 ∧
      L ≤ d.width * d.height * (d.channels + 1) + 14 + 8 := by
  obtain ⟨st, hp, hM, h14, hb, -, -⟩ := encode_pixels_ok data d hv hlen
  have hr := (rejects_eq_false_iff data d out_len).mpr ⟨hne, ho, hv⟩
  have hb2 : st.p ≤ 14 + (d.channels + 1) * (d.width * d.height) := by omega
  rw [Nat.mul_comm (d.channels + 1)] at hb2
  have h8 : st.p + 8 ≤ st.bytes.length := by omega
  refine ⟨_, _, qoi_encode_of_pixels data d out_len st hr hp h8, ?_, by omega⟩
  simp only [List.length_append, List.length_take, List.length_drop, qoi_padding,
    List.length_cons, List.length_nil]
  omega

/-- The pixel read panics when the input does not reach to the end of the
pixel: with three channels the index `pixels[px_pos+2]` is out of range, with
four the slice bound `px_pos+4` is above the capacity. -/
theorem read_pixel_none (c : Nat) (data : go_bytes) (pos : Nat) (px : qoi_rgba_t)
    (hc : c = 3 ∨ c = 4) (hlen : avail data c < pos + c) (hw : pos + c < 4294967296) :
    read_pixel c data pos px = none := by
  unfold read_pixel
  rcases hc with hc | hc
  · subst hc
    have hav : avail data 3 = data.len := by unfold avail; rw [if_neg (by decide)]
    rw [hav] at hlen
    have e2 : u32 (pos + 2) = pos + 2 := by unfold u32; omega
    have h2 : index_at data (pos + 2) = none := by
      unfold index_at
      rw [if_neg (by omega)]
    rw [if_neg (by decide), e2, h2]
    cases index_at data (u32 (pos + 0)) with
    | none => rfl
    | some r =>
      cases index_at data (u32 (pos + 1)) with
      | none => rfl
      | some g => rfl
  · subst hc
    have hav : avail data 4 = data.arr.length := by unfold avail; rw [if_pos rfl]
    rw [hav] at hlen
    have e4 : u32 (pos + 4) = pos + 4 := by unfold u32; omega
    rw [if_pos rfl, e4]
    unfold slice
    rw [if_neg (by omega)]
    rfl

/-- An iteration whose pixel read panics panics. -/
theorem encode_pixel_none (c px_end : Nat) (data : go_bytes) (pos : Nat) (st : EncState)
    (h : read_pixel c data pos st.px = none) : encode_pixel c px_end data pos st = none := by
  unfold encode_pixel
  rw [h]
  rfl

/-- Panic rule for the pixel loop over `n` pixels of `c` bytes: when the
iterations before pixel `i0` succeed and re-establish the invariant and the
iteration of pixel `i0` panics, the loop panics. -/
theorem encode_loop_panics (Inv : Nat → EncState → Prop) (c n px_end : Nat) (data : go_bytes)
    (hc : 0 < c) (hn : n * c < 4294967296) (i0 : Nat) (hi0 : i0 < n)
    (hstep : ∀ i st, i < i0 → Inv i st →
      ∃ st1, encode_pixel c px_end data (i * c) st = some st1 ∧ Inv (i + 1) st1)
    (hbad : ∀ st, encode_pixel c px_end data (i0 * c) st = none) :
    ∀ (fuel i : Nat) (st : EncState), i ≤ i0 → i0 < i + fuel → Inv i st →
      encode_loop c (n * c) px_end data fuel (i * c) st = Res.panic := by
  intro fuel
  induction fuel with
  | zero =>
    intro i st hi hf hinv
    omega
  | succ fuel ih =>
    intro i st hi hf hinv
    unfold encode_loop
    have hin : i < n := by omega
    rw [if_pos (Nat.mul_lt_mul_of_pos_right hin hc)]
    by_cases hlt : i < i0
    · obtain ⟨st1, hs, hinv1⟩ := hstep i st hlt hinv
      rw [hs]
      have hle : (i + 1) * c ≤ n * c := Nat.mul_le_mul_right c hin
      have e : u32 (i * c + c) = (i + 1) * c := by
        unfold u32
        rw [Nat.succ_mul]
        rw [Nat.succ_mul] at hle
        omega
      simp only [e]
      exact ih (i + 1) st1 hlt (by omega) hinv1
    · have : i = i0 := by omega
      subst this
      rw [hbad st]

/-- The pixel loop panics when the input does not cover the pixels: the
iteration of pixel number `avail / channels` reads out of range. -/
theorem encode_pixels_panic (data : go_bytes) (d : qoi_desc) (hv : Valid d)
    (hlen : ¬ covers data d) : encode_pixels data d = Res.panic := by
  have hn := hv.pixels_lt
  have hpl := px_len_of_eq hv
  obtain ⟨hw0, hh0, hc, -, -⟩ := hv
  unfold covers at hlen
  unfold encode_pixels
  rw [write_header_eq, hpl]
  simp only
  generalize hN : d.width * d.height = n at hn hlen ⊢
  generalize hA : avail data d.channels = a at hlen
  have hc0 : 0 < d.channels := by omega
  have hnc : n * d.channels < 4294967296 := by
    rcases hc with hc | hc <;> rw [hc] <;> omega
  have hi0 : a / d.channels < n := by
    rcases hc with hc | hc <;> rw [hc] at hlen ⊢ <;> omega
  have hfuel : a / d.channels < 0 + n * d.channels := by
    rcases hc with hc | hc <;> rw [hc] at hi0 ⊢ <;> omega
  have hstep : ∀ i st, i < a / d.channels →
      LoopInv (n * (d.channels + 1) + 22) d.channels (header_bytes d) i st →
      ∃ st1, encode_pixel d.channels (px_end_of d) data (i * d.channels) st = some st1 ∧
        LoopInv (n * (d.channels + 1) + 22) d.channels (header_bytes d) (i + 1) st1 := by
    intro i st hi hinv
    have hle : (i + 1) * d.channels ≤ a := by
      rcases hc with hc | hc <;> rw [hc] at hi ⊢ <;> omega
    exact loop_step_ok data d.channels (px_end_of d) n (header_bytes d) hc hn i st (by omega)
      (by rw [hA]; exact hle) hinv
  have hbad : ∀ st, encode_pixel d.channels (px_end_of d) data (a / d.channels * d.channels) st =
      none := by
    intro st
    apply encode_pixel_none
    apply read_pixel_none _ _ _ _ hc
    · rw [hA]
      rcases hc with hc | hc <;> rw [hc] <;> omega
    · rcases hc with hc | hc <;> rw [hc] at hi0 hnc ⊢ <;> omega
  generalize hst0 : ({ init_state d with
      bytes := header_bytes d ++ List.replicate (n * (d.channels + 1) + 8) 0,
      p := 14 } : EncState) = st0
  have hinit : LoopInv (n * (d.channels + 1) + 22) d.channels (header_bytes d) 0 st0 := by
    subst hst0
    refine ⟨?_, Nat.le_refl _, ?_, rfl, ?_⟩
    · simp [header_bytes, uint32_to_bytes]
    · simp [pend, init_state]
    · simp [header_bytes, uint32_to_bytes]
  have key := encode_loop_panics
    (LoopInv (n * (d.channels + 1) + 22) d.channels (header_bytes d))
    d.channels n (px_end_of d) data hc0 hnc (a / d.channels) hi0 hstep hbad (n * d.channels) 0
    st0 (Nat.zero_le _) hfuel hinit
  rw [Nat.zero_mul] at key
  exact key

/-- A call that passes the guard on an input that does not cover the pixels
panics. -/
theorem qoi_encode_panic (data : go_bytes) (d : qoi_desc) (out_len : Option Nat)
    (hv : Valid d) (ho : out_len ≠ none) (hne : data.len ≠ 0) (hlen : ¬ covers data d) :
    qoi_encode data (some d) out_len = Res.panic := by
  have hr := (rejects_eq_false_iff data d out_len).mpr ⟨hne, ho, hv⟩
  have hp := encode_pixels_panic data d hv hlen
  unfold qoi_encode qoi_encode_state
  simp only [hr, hp, Bool.false_eq_true, if_false]

/-- The encoder reads above the length of its input: on a buffer of length 1
and capacity 8 with the descriptor 1x1, four channels, the call returns 23
bytes, one Run chunk between header and end marker. -/
theorem spare_capacity_read :
    qoi_encode (spare_capacity 1) (some ⟨1, 1, 4, 0⟩) (some 0) =
      Res.ok ([0, 0, 0, 102, 0, 0, 0, 1, 0, 0, 0, 1, 4, 0, 192, 0, 0, 0, 0, 0, 0, 0, 1,
        0, 0, 0, 0], 23) := by
  decide

/-- A buffer of exactly width*height*channels bytes is not empty and covers
the pixels. -/
theorem covers_of_len (data : go_bytes) (d : qoi_desc) (hv : Valid d)
    (hlen : data.len = d.width * d.height * d.channels) : data.len ≠ 0 ∧ covers data d := by
  obtain ⟨hw, hh, hc, -, -⟩ := hv
  have h1 : 0 < d.width * d.height := Nat.mul_pos hw hh
  have h2 : 0 < d.width * d.height * d.channels := Nat.mul_pos h1 (by omega)
  refine ⟨by omega, ?_⟩
  unfold covers
  rw [← hlen]
  exact len_le_avail data d.channels

/-! ## Header, end marker and bounds -/

/-- What `bytes_to_uint32` computes: the shifted terms vanish in 8-bit
arithmetic, so only the last byte is left. -/
theorem bytes_to_uint32_eq (b0 b1 b2 b3 : Nat) : bytes_to_uint32 b0 b1 b2 b3 = b3 % 256 := by
  unfold bytes_to_uint32 shl8 u8 u32
  simp only [Nat.shiftLeft_eq]
  omega

theorem mask_shift (m v k : Nat) : (m &&& v) >>> k = (v >>> k) &&& (m >>> k) := by
  apply Nat.eq_of_testBit_eq
  intro i
  simp only [Nat.testBit_shiftRight, Nat.testBit_and]
  exact Bool.and_comm _ _

theorem uint32_to_bytes_eq (v : Nat) : uint32_to_bytes v = be32 v := by
  have e3 : (0xff000000 : Nat) >>> 24 = 2 ^ 8 - 1 := by decide
  have e2 : (0x00ff0000 : Nat) >>> 16 = 2 ^ 8 - 1 := by decide
  have e1 : (0x0000ff00 : Nat) >>> 8 = 2 ^ 8 - 1 := by decide
  have e0 : (0x000000ff : Nat) = 2 ^ 8 - 1 := by decide
  unfold uint32_to_bytes be32 u8
  rw [mask_shift, mask_shift, mask_shift, e3, e2, e1, Nat.and_comm 0x000000ff v, e0]
  simp only [Nat.and_pow_two_sub_one_eq_mod, Nat.shiftRight_eq_div_pow]
  norm_num

theorem from_be32_be32 (v : Nat) (h : v < 4294967296) : from_be32 (be32 v) = some v := by
  unfold be32 from_be32
  simp only [Option.some.injEq]
  omega

theorem take_drop_of_take (l : List Nat) (n a b : Nat) (h : a + b ≤ n) :
    (l.drop a).take b = ((l.take n).drop a).take b := by
  rw [List.drop_take, List.take_take, Nat.min_eq_left (by omega)]

/-- A successful call has a present, valid descriptor, and its first
fourteen bytes are the header that `write_header` wrote. -/
theorem qoi_encode_ok_header (data : go_bytes) (desc : Option qoi_desc) (out_len : Option Nat)
    (bytes : List Nat) (L : Nat) (h : qoi_encode data desc out_len = Res.ok (bytes, L)) :
    ∃ d, desc = some d ∧ Valid d ∧ bytes.take 14 = header_bytes d := by
  obtain ⟨d, st, hd, hr, hp, h8, hb, -⟩ := qoi_encode_ok data desc out_len bytes L h
  obtain ⟨hM, h14, hH⟩ := encode_pixels_keeps data d st hp
  refine ⟨d, hd, ((rejects_eq_false_iff data d out_len).mp hr).2.2, ?_⟩
  rw [hb, List.append_assoc, List.take_append_of_le_length, List.take_take,
    Nat.min_eq_left h14, hH]
  simp only [List.length_take]
  omega

/-- The nil return is exactly the guard firing: a call that passes the guard
ends in a buffer, a panic or an unfinished loop, never in nil. -/
theorem qoi_encode_failure_iff_rejects (data : go_bytes) (d : qoi_desc) (out_len : Option Nat) :
    qoi_encode data (some d) out_len = Res.failure ↔ rejects data (some d) out_len = true := by
  cases hr : rejects data (some d) out_len with
  | true => simp [qoi_encode, qoi_encode_state, hr]
  | false =>
    have hnf : qoi_encode data (some d) out_len ≠ Res.failure := by
      unfold qoi_encode qoi_encode_state
      simp only [hr, Bool.false_eq_true, if_false]
      have hne : encode_pixels data d ≠ Res.failure := by
        unfold encode_pixels
        rw [write_header_eq]
        exact encode_loop_ne_failure _ _ _ _ _ _ _
      cases hp : encode_pixels data d with
      | failure => exact absurd hp hne
      | panic => simp
      | diverge => simp
      | ok st => cases hq : qoi_padding.foldlM put st <;> simp [hq]
    simp [hnf]

/-! ## The loop body as a function -/

theorem emit_eq (st st1 : EncState) (k : ChunkKind) (bs : List Nat) (hne : bs ≠ [])
    (h : emit st k bs = some st1) : st1 = write_chunk st { kind := k, bytes := bs } := by
  unfold emit at h
  cases hf : bs.foldlM put st with
  | none => simp [hf] at h
  | some st2 =>
    rcases puts_inv bs st st2 hf with h0 | h0
    · exact absurd h0 hne
    · rw [hf] at h
      rw [puts_spec bs st h0] at hf
      injection hf with hf
      injection h with h
      subst hf; subst h
      rfl

theorem flush_run_eq (st st1 : EncState) (h : flush_run st = some st1) : st1 = flushed st := by
  unfold flush_run at h
  cases he : emit st ChunkKind.run [QOI_OP_RUN ||| sub8 st.run 1] with
  | none => simp [he] at h
  | some st2 =>
    rw [he] at h
    injection h with h
    subst h
    rw [emit_eq st st2 _ _ (by simp) he]
    rfl

theorem encode_explicit_eq (st st1 : EncState) (px : qoi_rgba_t)
    (h : encode_explicit st px = some st1) :
    st1 = write_chunk st (explicit_chunk st.px_prev px) := by
  unfold encode_explicit at h
  unfold explicit_chunk
  split at h
  · rename_i ha
    simp only [if_pos ha]
    simp only at h
    split at h
    · rename_i hd
      simp only [if_pos hd]
      exact emit_eq _ _ _ _ (by simp) h
    · rename_i hd
      simp only [if_neg hd]
      split at h
      · rename_i hl
        simp only [if_pos hl]
        exact emit_eq _ _ _ _ (by simp) h
      · rename_i hl
        simp only [if_neg hl]
        exact emit_eq _ _ _ _ (by simp) h
  · rename_i ha
    simp only [if_neg ha]
    exact emit_eq _ _ _ _ (by simp) h

theorem encode_lookup_eq (st st1 : EncState) (px : qoi_rgba_t)
    (h : encode_lookup st px = some st1) : st1 = lookup_pure st px := by
  unfold encode_lookup at h
  unfold lookup_pure
  simp only at h
  split at h
  · rename_i hh
    rw [if_pos hh]
    exact emit_eq _ _ _ _ (by simp) h
  · rename_i hh
    rw [if_neg hh]
    exact encode_explicit_eq _ _ _ h

theorem encode_pixel_eq_step (c px_end : Nat) (data : go_bytes) (pos : Nat) (st st1 : EncState)
    (h : encode_pixel c px_end data pos st = some st1) :
    ∃ px, read_pixel c data pos st.px = some px ∧ st1 = step_pure px_end pos st px := by
  unfold encode_pixel at h
  cases hr : read_pixel c data pos st.px with
  | none => simp [hr] at h
  | some px =>
    refine ⟨px, rfl, ?_⟩
    simp only [hr, Option.bind_eq_bind, Option.some_bind] at h
    unfold step_pure
    by_cases hrun : px.v = st.px_prev.v
    · simp only [hrun, if_true] at h ⊢
      split at h
      · rename_i hfl
        cases hf : flush_run { st with px := px, run := u8 (st.run + 1) } with
        | none => simp [hf] at h
        | some st2 =>
          simp only [hf, Option.some_bind, Option.some.injEq] at h
          rw [if_pos hfl, ← flush_run_eq _ _ hf]
          exact h.symm
      · rename_i hfl
        simp only [Option.some_bind, Option.some.injEq] at h
        rw [if_neg hfl]
        exact h.symm
    · simp only [hrun, if_false] at h ⊢
      by_cases hrun0 : st.run > 0
      · simp only [hrun0, if_true] at h ⊢
        cases hf : flush_run { st with px := px } with
        | none => simp [hf] at h
        | some st2 =>
          simp only [hf, Option.some_bind] at h
          cases hl : encode_lookup st2 px with
          | none => simp [hl] at h
          | some st3 =>
            simp only [hl, Option.some_bind, Option.some.injEq] at h
            rw [← flush_run_eq _ _ hf, ← encode_lookup_eq _ _ _ hl]
            exact h.symm
      · simp only [hrun0, if_false, Option.some_bind] at h ⊢
        cases hl : encode_lookup { st with px := px } px with
        | none => simp [hl] at h
        | some st3 =>
          simp only [hl, Option.some_bind, Option.some.injEq] at h
          rw [← encode_lookup_eq _ _ _ hl]
          exact h.symm

theorem step_pure_px (px_end pos : Nat) (st : EncState) (px : qoi_rgba_t) :
    (step_pure px_end pos st px).px = px ∧ (step_pure px_end pos st px).px_prev = px := by
  unfold step_pure lookup_pure flushed write_chunk
  split_ifs <;> exact ⟨rfl, rfl⟩

theorem step_pure_chunks (px_end pos : Nat) (st : EncState) (px : qoi_rgba_t) :
    (step_pure px_end pos st px).chunks = st.chunks ++ step_chunks px_end pos st px := by
  unfold step_pure step_chunks lookup_chunk lookup_pure flushed write_chunk
  split_ifs <;> simp

theorem step_pure_run (px_end pos : Nat) (st : EncState) (px : qoi_rgba_t) :
    (step_pure px_end pos st px).run = step_run px_end pos st px := by
  unfold step_pure step_run lookup_pure flushed write_chunk
  split_ifs <;> simp <;> omega

theorem step_pure_index (px_end pos : Nat) (st : EncState) (px : qoi_rgba_t) :
    (step_pure px_end pos st px).index = step_index st px := by
  unfold step_pure step_index lookup_pure flushed write_chunk
  split_ifs <;> rfl

theorem chunk_bytes_append (l : List Chunk) (c : Chunk) :
    chunk_bytes (l ++ [c]) = chunk_bytes l ++ c.bytes := by
  simp [chunk_bytes]

theorem BytesInv.write {H : List Nat} {M : Nat} {st : EncState} (h : BytesInv H M st)
    (c : Chunk) : BytesInv H M (write_chunk st c) := by
  obtain ⟨hb, hp⟩ := h
  have hlen : (H ++ chunk_bytes st.chunks).length = st.p := by
    rw [List.length_append]; exact hp.symm
  unfold BytesInv write_chunk
  simp only [chunk_bytes_append, List.length_append]
  refine ⟨?_, by omega⟩
  have e1 : st.bytes.take st.p = H ++ chunk_bytes st.chunks := by
    rw [hb]; exact List.take_left' hlen
  have e2 : st.bytes.drop (st.p + c.bytes.length) =
      List.replicate (M - (st.p + c.bytes.length)) 0 := by
    rw [hb, ← hlen, List.drop_append, List.drop_replicate, hlen]
    congr 1
    omega
  rw [e1, e2]
  simp only [List.append_assoc]

theorem BytesInv.step_bytes {H : List Nat} {M : Nat} {st : EncState} (h : BytesInv H M st)
    (px_end pos : Nat) (px : qoi_rgba_t) : BytesInv H M (step_pure px_end pos st px) := by
  have hpx : ∀ (s : EncState) (q : qoi_rgba_t) (r : Nat), BytesInv H M s →
      BytesInv H M { s with px := q, run := r } := fun _ _ _ hs => hs
  have hfl : ∀ (s : EncState), BytesInv H M s → BytesInv H M (flushed s) :=
    fun s hs => hs.write (run_chunk s.run)
  have hlk : ∀ (s : EncState), BytesInv H M s → BytesInv H M (lookup_pure s px) := by
    intro s hs
    unfold lookup_pure
    split_ifs
    · exact hs.write _
    · have h2 : BytesInv H M
          { s with index := fun i => if i = QOI_COLOR_HASH px % 64 then px else s.index i } := hs
      exact h2.write _
  have hfin : ∀ (s : EncState), BytesInv H M s → BytesInv H M { s with px_prev := s.px } :=
    fun _ hs => hs
  unfold step_pure
  apply hfin
  split_ifs
  · exact hfl _ (hpx st px _ h)
  · exact hpx st px _ h
  · exact hlk _ (hfl _ (hpx st px st.run h))
  · exact hlk _ (hpx st px st.run h)

/-! ## Tag bytes -/

theorem lor_192 : ∀ x, x < 64 → 192 ||| x = 192 + x := by decide

theorem lor_128 : ∀ x, x < 64 → 128 ||| x = 128 + x := by decide

theorem lor_64 : ∀ x, x < 4 → ∀ y, y < 4 → ∀ z, z < 4 →
    64 ||| x * 16 ||| y * 4 ||| z = 64 + x * 16 + y * 4 + z := by decide

theorem lor_nibbles : ∀ x, x < 16 → ∀ y, y < 16 → x * 16 ||| y = x * 16 + y := by decide

theorem run_byte_eq (r : Nat) (h1 : 1 ≤ r) (h2 : r ≤ 62) :
    QOI_OP_RUN ||| sub8 r 1 = 191 + r := by
  have e : sub8 r 1 = r - 1 := by unfold sub8; omega
  rw [e]
  unfold QOI_OP_RUN
  rw [lor_192 (r - 1) (by omega)]
  omega

theorem diff_byte_eq (vr vg vb : Int) (hr : vr > -3 ∧ vr < 2) (hg : vg > -3 ∧ vg < 2)
    (hb : vb > -3 ∧ vb < 2) :
    QOI_OP_DIFF ||| byte_of_int8 (int8 (int8 (vr + 2) * 16))
        ||| byte_of_int8 (int8 (int8 (vg + 2) * 4)) ||| byte_of_int8 (int8 (vb + 2)) =
      64 + (vr + 2).toNat * 16 + (vg + 2).toNat * 4 + (vb + 2).toNat := by
  have e1 : byte_of_int8 (int8 (int8 (vr + 2) * 16)) = (vr + 2).toNat * 16 := by
    unfold byte_of_int8 int8; omega
  have e2 : byte_of_int8 (int8 (int8 (vg + 2) * 4)) = (vg + 2).toNat * 4 := by
    unfold byte_of_int8 int8; omega
  have e3 : byte_of_int8 (int8 (vb + 2)) = (vb + 2).toNat := by
    unfold byte_of_int8 int8; omega
  rw [e1, e2, e3]
  unfold QOI_OP_DIFF
  exact lor_64 _ (by omega) _ (by omega) _ (by omega)

theorem luma_byte1_eq (vg : Int) (hg : vg > -33 ∧ vg < 32) :
    QOI_OP_LUMA ||| byte_of_int8 (int8 (vg + 32)) = 128 + (vg + 32).toNat := by
  have e1 : byte_of_int8 (int8 (vg + 32)) = (vg + 32).toNat := by
    unfold byte_of_int8 int8; omega
  rw [e1]
  unfold QOI_OP_LUMA
  exact lor_128 _ (by omega)

theorem luma_byte2_eq (vg_r vg_b : Int) (hr : vg_r > -9 ∧ vg_r < 8) (hb : vg_b > -9 ∧ vg_b < 8) :
    byte_of_int8 (int8 (int8 (vg_r + 8) * 16)) ||| byte_of_int8 (int8 (vg_b + 8)) =
      (vg_r + 8).toNat * 16 + (vg_b + 8).toNat := by
  have e1 : byte_of_int8 (int8 (int8 (vg_r + 8) * 16)) = (vg_r + 8).toNat * 16 := by
    unfold byte_of_int8 int8; omega
  have e2 : byte_of_int8 (int8 (vg_b + 8)) = (vg_b + 8).toNat := by
    unfold byte_of_int8 int8; omega
  rw [e1, e2]
  exact lor_nibbles _ (by omega) _ (by omega)

/-! ## Properties of the chunks of one iteration -/

theorem run_chunk_ok (r : Nat) (h1 : 1 ≤ r) (h2 : r ≤ 62) :
    run_chunk r = { kind := ChunkKind.run, bytes := [191 + r] } := by
  unfold run_chunk
  rw [run_byte_eq r h1 h2]

theorem explicit_chunk_ok (prev px : qoi_rgba_t) :
    (explicit_chunk prev px).kind ≠ ChunkKind.index ∧
    (explicit_chunk prev px).kind ≠ ChunkKind.run ∧
    WellTagged (explicit_chunk prev px) ∧
    ∃ t rest, (explicit_chunk prev px).bytes = t :: rest ∧
      tag_kind t = (explicit_chunk prev px).kind := by
  unfold explicit_chunk
  split
  · simp only []
    split
    · rename_i hd
      obtain ⟨h1, h2, h3, h4, h5, h6⟩ := hd
      have e := diff_byte_eq _ _ _ ⟨h1, h2⟩ ⟨h3, h4⟩ ⟨h5, h6⟩
      refine ⟨by simp, by simp, ?_, ?_⟩
      · simp only [WellTagged]
        exact ⟨_, rfl, by rw [e]; omega, by rw [e]; omega⟩
      · refine ⟨_, _, rfl, ?_⟩
        rw [e]
        unfold tag_kind QOI_OP_RGB QOI_OP_RGBA
        rw [if_neg (by omega), if_neg (by omega), if_neg (by omega), if_pos (by omega)]
    · split
      · rename_i hl
        obtain ⟨h1, h2, h3, h4, h5, h6⟩ := hl
        have e := luma_byte1_eq _ ⟨h3, h4⟩
        refine ⟨by simp, by simp, ?_, ?_⟩
        · simp only [WellTagged]
          exact ⟨_, _, rfl, by rw [e]; omega, by rw [e]; omega⟩
        · refine ⟨_, _, rfl, ?_⟩
          rw [e]
          unfold tag_kind QOI_OP_RGB QOI_OP_RGBA
          rw [if_neg (by omega), if_neg (by omega), if_neg (by omega), if_neg (by omega),
            if_pos (by omega)]
      · refine ⟨by simp, by simp, ?_, ?_⟩
        · simp only [WellTagged]
          exact ⟨_, _, _, rfl⟩
        · exact ⟨_, _, rfl, rfl⟩
  · refine ⟨by simp, by simp, ?_, ?_⟩
    · simp only [WellTagged]
      exact ⟨_, _, _, _, rfl⟩
    · exact ⟨_, _, rfl, rfl⟩

theorem lookup_chunk_ok (st : EncState) (px : qoi_rgba_t) :
    (lookup_chunk st px).kind ≠ ChunkKind.run ∧ WellTagged (lookup_chunk st px) ∧
    (∃ t rest, (lookup_chunk st px).bytes = t :: rest ∧ tag_kind t = (lookup_chunk st px).kind) ∧
    ∀ b, lookup_chunk st px = { kind := ChunkKind.index, bytes := [b] } →
      b = QOI_COLOR_HASH px % 64 ∧ (st.index b).v = px.v := by
  unfold lookup_chunk
  have hlt : QOI_COLOR_HASH px % 64 < 64 := Nat.mod_lt _ (by decide)
  have e : QOI_OP_INDEX ||| QOI_COLOR_HASH px % 64 = QOI_COLOR_HASH px % 64 := by
    unfold QOI_OP_INDEX
    exact Nat.zero_or _
  split_ifs with hh
  · rw [e]
    refine ⟨by simp, ?_, ?_, ?_⟩
    · simp only [WellTagged]
      exact ⟨_, rfl, by omega⟩
    · refine ⟨_, _, rfl, ?_⟩
      unfold tag_kind QOI_OP_RGB QOI_OP_RGBA
      rw [if_neg (by omega), if_neg (by omega), if_pos (by omega)]
    · intro b hb
      simp only [Chunk.mk.injEq, List.cons.injEq, and_true, true_and] at hb
      subst hb
      exact ⟨rfl, hh⟩
  · obtain ⟨h1, h2, h3, h4⟩ := explicit_chunk_ok st.px_prev px
    refine ⟨h2, h3, h4, ?_⟩
    intro b hb
    rw [hb] at h1
    exact absurd rfl h1

theorem last_snoc (l : List Chunk) (x : Chunk) : (l ++ [x])[(l ++ [x]).length - 1]? = some x := by
  simp

theorem NoRepeatIdx.snoc {l : List Chunk} (h : NoRepeatIdx l) (x : Chunk)
    (hx : ∀ b, l[l.length - 1]? = some { kind := ChunkKind.index, bytes := [b] } →
      x ≠ { kind := ChunkKind.index, bytes := [b] }) : NoRepeatIdx (l ++ [x]) := by
  intro i b h1 h2
  by_cases hlt : i + 1 < l.length
  · rw [List.getElem?_append_left (by omega)] at h1
    rw [List.getElem?_append_left hlt] at h2
    exact h i b h1 h2
  · by_cases heq : i + 1 = l.length
    · rw [List.getElem?_append_left (by omega)] at h1
      rw [List.getElem?_append_right (by omega)] at h2
      have e : i = l.length - 1 := by omega
      rw [e] at h1
      have e2 : i + 1 - l.length = 0 := by omega
      rw [e2] at h2
      simp only [List.getElem?_cons_zero, Option.some.injEq] at h2
      exact hx b h1 h2
    · have : (l ++ [x])[i + 1]? = none := by
        apply List.getElem?_eq_none
        simp only [List.length_append, List.length_cons, List.length_nil]
        omega
      rw [this] at h2
      cases h2

theorem covered_append (l1 l2 : List Chunk) : covered (l1 ++ l2) = covered l1 + covered l2 := by
  simp [covered]

theorem covered_run_chunk (r : Nat) (h1 : 1 ≤ r) (h2 : r ≤ 62) : covered [run_chunk r] = r := by
  rw [run_chunk_ok r h1 h2]
  simp only [covered, chunk_pixels, List.map_cons, List.map_nil, List.sum_cons, List.sum_nil,
    List.headD_cons]
  omega

theorem covered_lookup_chunk (st : EncState) (px : qoi_rgba_t) :
    covered [lookup_chunk st px] = 1 := by
  have h := (lookup_chunk_ok st px).1
  simp only [covered, List.map_cons, List.map_nil, List.sum_cons, List.sum_nil, Nat.add_zero]
  unfold chunk_pixels
  split
  · rename_i hk
    exact absurd hk h
  · rfl

theorem step_run_lt (px_end pos : Nat) (st : EncState) (px : qoi_rgba_t) (h : st.run < 62) :
    step_run px_end pos st px < 62 := by
  unfold step_run u8
  split_ifs <;> omega

theorem step_run_last (px_end : Nat) (st : EncState) (px : qoi_rgba_t) :
    step_run px_end px_end st px = 0 := by
  unfold step_run
  split_ifs <;> simp_all

theorem step_covered (px_end pos : Nat) (st : EncState) (px : qoi_rgba_t) (h : st.run < 62) :
    covered (step_chunks px_end pos st px) + step_run px_end pos st px = st.run + 1 := by
  have e : u8 (st.run + 1) = st.run + 1 := by unfold u8; omega
  unfold step_chunks step_run
  rw [e]
  split_ifs with h1 h2 h3
  · rw [covered_run_chunk _ (by omega) (by omega)]
  · simp [covered]
  · rw [covered_append, covered_run_chunk _ (by omega) (by omega), covered_lookup_chunk]
  · rw [covered_append, covered_lookup_chunk]
    simp only [covered, List.map_nil, List.sum_nil]
    omega

theorem step_chunks_tagged (px_end pos : Nat) (st : EncState) (px : qoi_rgba_t)
    (h : st.run < 62) : ∀ ch ∈ step_chunks px_end pos st px,
      WellTagged ch ∧ ∃ t rest, ch.bytes = t :: rest ∧ tag_kind t = ch.kind := by
  have e : u8 (st.run + 1) = st.run + 1 := by unfold u8; omega
  have hrun : ∀ r, 1 ≤ r → r ≤ 62 →
      WellTagged (run_chunk r) ∧ ∃ t rest, (run_chunk r).bytes = t :: rest ∧
        tag_kind t = (run_chunk r).kind := by
    intro r h1 h2
    rw [run_chunk_ok r h1 h2]
    refine ⟨?_, _, _, rfl, ?_⟩
    · simp only [WellTagged]
      exact ⟨_, rfl, by omega, by omega⟩
    · unfold tag_kind QOI_OP_RGB QOI_OP_RGBA
      rw [if_neg (by omega), if_neg (by omega), if_neg (by omega), if_neg (by omega),
        if_neg (by omega)]
  have hlk := lookup_chunk_ok st px
  unfold step_chunks
  rw [e]
  intro ch hch
  split_ifs at hch with h1 h2 h3
  · simp only [List.mem_singleton] at hch
    rw [hch]
    exact hrun _ (by omega) (by omega)
  · simp at hch
  · simp only [List.mem_append, List.mem_singleton] at hch
    rcases hch with hch | hch
    · rw [hch]; exact hrun _ (by omega) (by omega)
    · rw [hch]; exact ⟨hlk.2.1, hlk.2.2.1⟩
  · simp only [List.nil_append, List.mem_singleton] at hch
    rw [hch]; exact ⟨hlk.2.1, hlk.2.2.1⟩

theorem run_chunk_ne_index (r b : Nat) :
    run_chunk r ≠ { kind := ChunkKind.index, bytes := [b] } := by
  intro h
  have := congrArg Chunk.kind h
  simp [run_chunk] at this

theorem step_index_hit (st : EncState) (px : qoi_rgba_t) (b : Nat)
    (h : lookup_chunk st px = { kind := ChunkKind.index, bytes := [b] }) :
    (step_index st px b).v = px.v := by
  obtain ⟨hb, hv⟩ := (lookup_chunk_ok st px).2.2.2 b h
  unfold step_index
  split_ifs with h1 h2
  · exact hv
  · exact hv
  · rw [← hb] at h2
    exact absurd hv h2

theorem step_norepeat (px_end pos : Nat) (st : EncState) (px : qoi_rgba_t)
    (hn : NoRepeatIdx st.chunks) (hl : LastIdx st) :
    NoRepeatIdx (st.chunks ++ step_chunks px_end pos st px) ∧
    ∀ b, (st.chunks ++ step_chunks px_end pos st px)[
        (st.chunks ++ step_chunks px_end pos st px).length - 1]? =
        some { kind := ChunkKind.index, bytes := [b] } → (step_index st px b).v = px.v := by
  unfold step_chunks
  split_ifs with h1 h2 h3
  · refine ⟨hn.snoc _ (fun b _ => run_chunk_ne_index _ b), ?_⟩
    intro b hb
    rw [last_snoc] at hb
    injection hb with hb
    exact absurd hb (run_chunk_ne_index _ b)
  · rw [List.append_nil]
    refine ⟨hn, ?_⟩
    intro b hb
    have := hl b hb
    unfold step_index
    rw [if_pos h1, this, h1]
  · have e : st.chunks ++ ([run_chunk st.run] ++ [lookup_chunk st px]) =
        (st.chunks ++ [run_chunk st.run]) ++ [lookup_chunk st px] := by
      simp
    rw [e]
    refine ⟨(hn.snoc _ (fun b _ => run_chunk_ne_index _ b)).snoc _ ?_, ?_⟩
    · intro b hb
      rw [last_snoc] at hb
      injection hb with hb
      exact absurd hb (run_chunk_ne_index _ b)
    · intro b hb
      rw [last_snoc] at hb
      injection hb with hb
      exact step_index_hit st px b hb
  · rw [List.nil_append]
    refine ⟨hn.snoc _ ?_, ?_⟩
    · intro b hb hx
      have h4 := hl b hb
      obtain ⟨-, hv⟩ := (lookup_chunk_ok st px).2.2.2 b hx
      exact h1 (hv.symm.trans h4)
    · intro b hb
      rw [last_snoc] at hb
      injection hb with hb
      exact step_index_hit st px b hb

theorem TraceInv.step_trace {n : Nat} {H : List Nat} {M i : Nat} {st : EncState}
    (h : TraceInv n H M i st) (c : Nat) (px : qoi_rgba_t) :
    TraceInv n H M (i + 1) (step_pure (n * c - c) (i * c) st px) := by
  obtain ⟨hb, hpx, hr, -, hcov, htag, hnr, hl⟩ := h
  obtain ⟨hnr1, hl1⟩ := step_norepeat (n * c - c) (i * c) st px hnr hl
  refine ⟨hb.step_bytes _ _ _, ?_, ?_, ?_, ?_, ?_, ?_, ?_⟩
  · rw [(step_pure_px _ _ _ _).1, (step_pure_px _ _ _ _).2]
  · rw [step_pure_run]; exact step_run_lt _ _ _ _ hr
  · intro hlast
    have e : i * c = n * c - c := by
      rw [← hlast, Nat.succ_mul]
      omega
    rw [step_pure_run, e]
    exact step_run_last _ _ _
  · rw [step_pure_run, step_pure_chunks, covered_append, Nat.add_assoc,
      step_covered _ _ _ _ hr]
    omega
  · rw [step_pure_chunks]
    intro ch hch
    rcases List.mem_append.mp hch with hch | hch
    · exact htag ch hch
    · exact step_chunks_tagged _ _ _ _ hr ch hch
  · rw [step_pure_chunks]; exact hnr1
  · unfold LastIdx
    rw [step_pure_chunks, step_pure_index, (step_pure_px _ _ _ _).2]
    exact hl1

/-! ## The loop as a sequence of iterations -/

/-- Rule for the first `k` iterations: a property indexed by the number of
pixels done, kept by every successful iteration, holds after them. -/
theorem steps_from_inv (Inv : Nat → EncState → Prop) (c n px_end : Nat) (data : go_bytes)
    (hn : n * c < 4294967296)
    (hstep : ∀ i st st1, i < n → Inv i st →
      encode_pixel c px_end data (i * c) st = some st1 → Inv (i + 1) st1) :
    ∀ (k i : Nat) (st st1 : EncState), i + k ≤ n → Inv i st →
      steps_from c px_end data k (i * c) st = some st1 → Inv (i + k) st1 := by
  intro k
  induction k with
  | zero =>
    intro i st st1 _ hinv h
    unfold steps_from at h
    injection h with h
    subst h
    exact hinv
  | succ k ih =>
    intro i st st1 hik hinv h
    unfold steps_from at h
    cases hs : encode_pixel c px_end data (i * c) st with
    | none => simp [hs] at h
    | some s2 =>
      simp only [hs] at h
      have hle : (i + 1) * c ≤ n * c := Nat.mul_le_mul_right c (by omega)
      have e : u32 (i * c + c) = (i + 1) * c := by
        unfold u32
        rw [Nat.succ_mul]
        rw [Nat.succ_mul] at hle
        omega
      rw [e] at h
      have := ih (i + 1) s2 st1 (by omega) (hstep i st s2 (by omega) hinv hs) h
      have e2 : i + 1 + k = i + (k + 1) := by omega
      rw [← e2]
      exact this

/-- A pixel loop over `n` pixels that ends has run exactly the remaining
`n - i` iterations. -/
theorem encode_loop_steps (c n px_end : Nat) (data : go_bytes) (hc : 0 < c)
    (hn : n * c < 4294967296) :
    ∀ (fuel i : Nat) (st st1 : EncState), i ≤ n →
      encode_loop c (n * c) px_end data fuel (i * c) st = Res.ok st1 →
      steps_from c px_end data (n - i) (i * c) st = some st1 := by
  intro fuel
  induction fuel with
  | zero =>
    intro i st st1 hi h
    unfold encode_loop at h
    by_cases hlt : i < n
    · rw [if_pos (Nat.mul_lt_mul_of_pos_right hlt hc)] at h
      cases h
    · have e : i = n := by omega
      subst e
      rw [if_neg (Nat.lt_irrefl _)] at h
      injection h with h
      subst h
      simp [steps_from]
  | succ fuel ih =>
    intro i st st1 hi h
    unfold encode_loop at h
    by_cases hlt : i < n
    · rw [if_pos (Nat.mul_lt_mul_of_pos_right hlt hc)] at h
      cases hs : encode_pixel c px_end data (i * c) st with
      | none => simp [hs] at h
      | some s2 =>
        simp only [hs] at h
        have hle : (i + 1) * c ≤ n * c := Nat.mul_le_mul_right c hlt
        have e : u32 (i * c + c) = (i + 1) * c := by
          unfold u32
          rw [Nat.succ_mul]
          rw [Nat.succ_mul] at hle
          omega
        rw [e] at h
        have h2 := ih (i + 1) s2 st1 hlt h
        have e2 : n - i = (n - (i + 1)) + 1 := by omega
        rw [e2]
        unfold steps_from
        simp only [hs, e]
        exact h2
    · have e : i = n := by omega
      subst e
      rw [if_neg (Nat.lt_irrefl _)] at h
      injection h with h
      subst h
      simp [steps_from]

theorem px_end_of_eq {d : qoi_desc} (h : Valid d) :
    px_end_of d = d.width * d.height * d.channels - d.channels ∧
      d.channels ≤ d.width * d.height * d.channels := by
  have hn := h.pixels_lt
  have hpl := px_len_of_eq h
  obtain ⟨hw, hh, hc, -, -⟩ := h
  have h1 : 0 < d.width * d.height := Nat.mul_pos hw hh
  unfold px_end_of
  rw [hpl]
  unfold u32
  generalize d.width * d.height = n at hn h1 ⊢
  rcases hc with hc | hc <;> rw [hc] <;> omega

theorem write_header_start (d : qoi_desc) :
    write_header d (init_state d) = some (start_state d) :=
  write_header_eq d

/-- The state in which the pixel loop starts. -/
theorem state_after_zero (data : go_bytes) (d : qoi_desc) :
    state_after data d 0 = some (start_state d) := by
  unfold state_after
  rw [write_header_start]
  rfl

/-- A pixel loop that ends has run exactly width*height iterations. -/
theorem encode_pixels_state_after (data : go_bytes) (d : qoi_desc) (st : EncState)
    (hv : Valid d) (h : encode_pixels data d = Res.ok st) :
    state_after data d (d.width * d.height) = some st := by
  have hn := hv.pixels_lt
  have hpl := px_len_of_eq hv
  have hc := hv.2.2.1
  unfold encode_pixels at h
  unfold state_after
  rw [write_header_start] at h ⊢
  simp only at h ⊢
  rw [hpl] at h
  have hc0 : 0 < d.channels := by omega
  have hnc : d.width * d.height * d.channels < 4294967296 := by
    generalize d.width * d.height = n at hn ⊢
    rcases hc with hc | hc <;> rw [hc] <;> omega
  have key := encode_loop_steps d.channels (d.width * d.height) (px_end_of d) data hc0 hnc
    (d.width * d.height * d.channels) 0 (start_state d) st (Nat.zero_le _)
  rw [Nat.zero_mul] at key
  exact key h

theorem start_state_trace (d : qoi_desc) :
    TraceInv (d.width * d.height) (header_bytes d)
      (d.width * d.height * (d.channels + 1) + 22) 0 (start_state d) := by
  refine ⟨⟨?_, ?_⟩, rfl, ?_, fun _ => rfl, rfl, ?_, ?_, ?_⟩
  · simp [chunk_bytes, init_state, start_state]
  · simp [chunk_bytes, init_state, start_state, header_bytes, uint32_to_bytes]
  · show (0 : Nat) < 62
    decide
  · intro ch hch
    simp [init_state, start_state] at hch
  · intro i b hb
    simp [init_state, start_state] at hb
  · intro b hb
    simp [init_state, start_state] at hb

/-- The trace invariant holds at the head of the loop after each number `k`
of pixels up to width*height. -/
theorem state_after_trace (data : go_bytes) (d : qoi_desc) (hv : Valid d) (k : Nat)
    (hk : k ≤ d.width * d.height) (s : EncState) (h : state_after data d k = some s) :
    TraceInv (d.width * d.height) (header_bytes d)
      (d.width * d.height * (d.channels + 1) + 22) k s := by
  have hn := hv.pixels_lt
  have hpe := (px_end_of_eq hv).1
  have hc := hv.2.2.1
  have hnc : d.width * d.height * d.channels < 4294967296 := by
    generalize d.width * d.height = n at hn ⊢
    rcases hc with hc | hc <;> rw [hc] <;> omega
  unfold state_after at h
  rw [write_header_start] at h
  simp only at h
  have hstep : ∀ i st st1, i < d.width * d.height →
      TraceInv (d.width * d.height) (header_bytes d)
        (d.width * d.height * (d.channels + 1) + 22) i st →
      encode_pixel d.channels (px_end_of d) data (i * d.channels) st = some st1 →
      TraceInv (d.width * d.height) (header_bytes d)
        (d.width * d.height * (d.channels + 1) + 22) (i + 1) st1 := by
    intro i st st1 _ hinv hs
    obtain ⟨px, -, he⟩ := encode_pixel_eq_step _ _ _ _ _ _ hs
    rw [he, hpe]
    exact hinv.step_trace d.channels px
  have key := steps_from_inv
    (TraceInv (d.width * d.height) (header_bytes d) (d.width * d.height * (d.channels + 1) + 22))
    d.channels (d.width * d.height) (px_end_of d) data hnc hstep k 0 (start_state d) s
    (by omega) (start_state_trace d)
  rw [Nat.zero_mul, Nat.zero_add] at key
  exact key h

/-! ## The final state -/

/-- What a successful call is made of, on the full final state: the pixel
loop ends in a state `st`, and the final state is `st` with the end marker
written at its cursor. -/
theorem qoi_encode_state_ok (data : go_bytes) (desc : Option qoi_desc) (out_len : Option Nat)
    (st1 : EncState) (h : qoi_encode_state data desc out_len = Res.ok st1) :
    ∃ d st, desc = some d ∧ Valid d ∧ encode_pixels data d = Res.ok st ∧
      st1 = { st with bytes := st.bytes.take st.p ++ qoi_padding ++ st.bytes.drop (st.p + 8),
                      p := st.p + 8 } := by
  unfold qoi_encode_state at h
  cases desc with
  | none => simp at h
  | some d =>
    simp only at h
    cases hr : rejects data (some d) out_len with
    | true => simp [hr] at h
    | false =>
      simp only [hr] at h
      cases hp : encode_pixels data d with
      | failure => simp [hp] at h
      | panic => simp [hp] at h
      | diverge => simp [hp] at h
      | ok st =>
        simp only [hp] at h
        cases hf : qoi_padding.foldlM put st with
        | none => simp [hf] at h
        | some st2 =>
          simp only [hf, Bool.false_eq_true, if_false, Res.ok.injEq] at h
          rcases puts_inv _ _ _ hf with h0 | h0
          · simp [qoi_padding] at h0
          · rw [puts_spec _ _ h0] at hf
            injection hf with hf
            subst hf
            refine ⟨d, st, rfl, ((rejects_eq_false_iff data d out_len).mp hr).2.2, hp, ?_⟩
            rw [← h]
            rfl

/-- The final state of a successful call: the pixel loop has run
width*height iterations and ended in a state `st` satisfying the trace
invariant; the final state has the chunks, counter and cache of `st`, and
its buffer is the header, the chunk bytes, the end marker and zeros. -/
theorem qoi_encode_state_final (data : go_bytes) (desc : Option qoi_desc)
    (out_len : Option Nat) (st1 : EncState)
    (h : qoi_encode_state data desc out_len = Res.ok st1) :
    ∃ d st, desc = some d ∧ Valid d ∧ state_after data d (d.width * d.height) = some st ∧
      TraceInv (d.width * d.height) (header_bytes d)
        (d.width * d.height * (d.channels + 1) + 22) (d.width * d.height) st ∧
      st1.chunks = st.chunks ∧ st1.run = st.run ∧ st1.p = st.p + 8 ∧
      st1.bytes = header_bytes d ++ chunk_bytes st.chunks ++ qoi_padding ++
        List.replicate (d.width * d.height * (d.channels + 1) + 22 - (st.p + 8)) 0 := by
  obtain ⟨d, st, hd, hv, hp, hst⟩ := qoi_encode_state_ok data desc out_len st1 h
  have hsa := encode_pixels_state_after data d st hv hp
  have ht := state_after_trace data d hv _ (Nat.le_refl _) st hsa
  refine ⟨d, st, hd, hv, hsa, ht, by rw [hst], by rw [hst], by rw [hst], ?_⟩
  have hw := ht.1.write { kind := ChunkKind.run, bytes := qoi_padding }
  obtain ⟨hb, -⟩ := hw
  have e : st1.bytes = (write_chunk st { kind := ChunkKind.run, bytes := qoi_padding }).bytes := by
    rw [hst]
    rfl
  rw [e, hb]
  simp only [write_chunk, chunk_bytes_append, qoi_padding, List.length_cons, List.length_nil,
    List.append_assoc]

theorem qoi_encode_chunks_ok (data : go_bytes) (desc : Option qoi_desc) (out_len : Option Nat)
    (chunks : List Chunk) (h : qoi_encode_chunks data desc out_len = Res.ok chunks) :
    ∃ st1, qoi_encode_state data desc out_len = Res.ok st1 ∧ st1.chunks = chunks := by
  unfold qoi_encode_chunks at h
  cases hs : qoi_encode_state data desc out_len with
  | failure => simp [hs] at h
  | panic => simp [hs] at h
  | diverge => simp [hs] at h
  | ok st1 =>
    simp only [hs, Res.ok.injEq] at h
    exact ⟨st1, rfl, h⟩

theorem qoi_encode_ok_state (data : go_bytes) (desc : Option qoi_desc) (out_len : Option Nat)
    (bytes : List Nat) (L : Nat) (h : qoi_encode data desc out_len = Res.ok (bytes, L)) :
    ∃ st1, qoi_encode_state data desc out_len = Res.ok st1 ∧ st1.bytes = bytes ∧ st1.p = L := by
  unfold qoi_encode at h
  cases hs : qoi_encode_state data desc out_len with
  | failure => simp [hs] at h
  | panic => simp [hs] at h
  | diverge => simp [hs] at h
  | ok st1 =>
    simp only [hs, Res.ok.injEq, Prod.mk.injEq] at h
    exact ⟨st1, rfl, h.1, h.2⟩

/-! ## Three-channel input -/

theorem replicate_snoc (k : Nat) (c : Chunk) :
    List.replicate k c ++ [c] = List.replicate (k + 1) c := by
  have : [c] = List.replicate 1 c := rfl
  rw [this, List.append_replicate_replicate]

theorem RunsInv.step_runs {n i : Nat} {st : EncState} (h : RunsInv n i st) (c : Nat) (hc : 0 < c)
    (hi : i < n) (px : qoi_rgba_t) (hpx : px.v = st.px.v) :
    RunsInv n (i + 1) (step_pure (n * c - c) (i * c) st px) := by
  obtain ⟨hv, hch, hr⟩ := h
  have hvv : px.v = st.px_prev.v := hpx.trans hv
  have hne : i ≠ n := by omega
  rw [if_neg hne] at hr
  have hch0 : st.chunks = List.replicate (i / 62) { kind := ChunkKind.run, bytes := [0xfd] } := by
    rw [hch]
    unfold run_chunks
    rw [if_neg (fun hh => hne hh.1), List.append_nil]
  have e : u8 (st.run + 1) = i % 62 + 1 := by rw [hr]; unfold u8; omega
  have hend : i * c = n * c - c ↔ i + 1 = n := by
    constructor
    · intro he
      have h1 : (i + 1) * c ≤ n * c := Nat.mul_le_mul_right c hi
      rw [Nat.succ_mul] at h1
      have h2 : (i + 1) * c = n * c := by rw [Nat.succ_mul]; omega
      exact Nat.eq_of_mul_eq_mul_right hc h2
    · intro he
      rw [← he, Nat.succ_mul]
      omega
  refine ⟨?_, ?_, ?_⟩
  · rw [(step_pure_px _ _ _ _).1, (step_pure_px _ _ _ _).2]
  · rw [step_pure_chunks]
    unfold step_chunks
    rw [if_pos hvv, e, hch0]
    unfold run_chunks
    by_cases hlast : i + 1 = n
    · have hfl : i % 62 + 1 = 62 ∨ i * c = n * c - c := Or.inr (hend.mpr hlast)
      rw [if_pos hfl, run_chunk_ok _ (by omega) (by omega)]
      by_cases h62 : (i + 1) % 62 = 0
      · have hA : ¬ (i + 1 = n ∧ (i + 1) % 62 ≠ 0) := fun hh => hh.2 h62
        rw [if_neg hA, List.append_nil]
        have e1 : 191 + (i % 62 + 1) = 0xfd := by omega
        have e2 : (i + 1) / 62 = i / 62 + 1 := by omega
        rw [e1, e2]
        exact replicate_snoc _ _
      · have hA : i + 1 = n ∧ (i + 1) % 62 ≠ 0 := ⟨hlast, h62⟩
        rw [if_pos hA]
        have e1 : 191 + (i % 62 + 1) = 0xc0 + (i + 1) % 62 - 1 := by omega
        have e2 : (i + 1) / 62 = i / 62 := by omega
        rw [e1, e2]
    · have hA : ¬ (i + 1 = n ∧ (i + 1) % 62 ≠ 0) := fun hh => hlast hh.1
      rw [if_neg hA, List.append_nil]
      by_cases h62 : i % 62 + 1 = 62
      · have hfl : i % 62 + 1 = 62 ∨ i * c = n * c - c := Or.inl h62
        rw [if_pos hfl, run_chunk_ok _ (by omega) (by omega)]
        have e1 : 191 + (i % 62 + 1) = 0xfd := by omega
        have e2 : (i + 1) / 62 = i / 62 + 1 := by omega
        rw [e1, e2]
        exact replicate_snoc _ _
      · have hfl : ¬ (i % 62 + 1 = 62 ∨ i * c = n * c - c) := by
          intro hh
          rcases hh with hh | hh
          · exact h62 hh
          · exact hlast (hend.mp hh)
        rw [if_neg hfl, List.append_nil]
        have e2 : (i + 1) / 62 = i / 62 := by omega
        rw [e2]
  · rw [step_pure_run]
    unfold step_run
    rw [if_pos hvv, e]
    by_cases hlast : i + 1 = n
    · have hfl : i % 62 + 1 = 62 ∨ i * c = n * c - c := Or.inr (hend.mpr hlast)
      rw [if_pos hfl, if_pos hlast]
    · rw [if_neg hlast]
      by_cases h62 : i % 62 + 1 = 62
      · have hfl : i % 62 + 1 = 62 ∨ i * c = n * c - c := Or.inl h62
        rw [if_pos hfl]
        omega
      · have hfl : ¬ (i % 62 + 1 = 62 ∨ i * c = n * c - c) := by
          intro hh
          rcases hh with hh | hh
          · exact h62 hh
          · exact hlast (hend.mp hh)
        rw [if_neg hfl]
        omega

theorem header_bytes_length (d : qoi_desc) : (header_bytes d).length = 14 := by
  simp [header_bytes, uint32_to_bytes]

theorem chunk_bytes_replicate (k b : Nat) :
    chunk_bytes (List.replicate k { kind := ChunkKind.run, bytes := [b] }) =
      List.replicate k b := by
  induction k with
  | zero => rfl
  | succ k ih =>
    rw [List.replicate_succ, List.replicate_succ]
    unfold chunk_bytes at ih ⊢
    rw [List.map_cons, List.flatten_cons, ih]
    rfl

theorem chunk_bytes_run_chunks (n : Nat) :
    chunk_bytes (run_chunks n n) =
      List.replicate (n / 62) 0xfd ++ (if n % 62 = 0 then [] else [0xc0 + n % 62 - 1]) := by
  unfold run_chunks
  by_cases h : n % 62 = 0
  · have hA : ¬ (n = n ∧ n % 62 ≠ 0) := fun hh => hh.2 h
    rw [if_neg hA, if_pos h, List.append_nil, List.append_nil, chunk_bytes_replicate]
  · have hA : n = n ∧ n % 62 ≠ 0 := ⟨rfl, h⟩
    rw [if_pos hA, if_neg h, chunk_bytes_append, chunk_bytes_replicate]

/-- With three channels every pixel is counted in a run: after `k` pixels
the chunks are `run_chunks`. -/
theorem state_after_runs (data : go_bytes) (d : qoi_desc) (hv : Valid d) (hc3 : d.channels = 3)
    (k : Nat) (hk : k ≤ d.width * d.height) (s : EncState)
    (h : state_after data d k = some s) : RunsInv (d.width * d.height) k s := by
  have hn := hv.pixels_lt
  have hpe := (px_end_of_eq hv).1
  have hnc : d.width * d.height * d.channels < 4294967296 := by
    rw [hc3]; omega
  unfold state_after at h
  rw [write_header_start] at h
  simp only at h
  have hstep : ∀ i st st1, i < d.width * d.height → RunsInv (d.width * d.height) i st →
      encode_pixel d.channels (px_end_of d) data (i * d.channels) st = some st1 →
      RunsInv (d.width * d.height) (i + 1) st1 := by
    intro i st st1 hi hinv hs
    obtain ⟨px, hrd, he⟩ := encode_pixel_eq_step _ _ _ _ _ _ hs
    have hkeep := (read_pixel_keeps _ _ _ _ _ (by rw [hc3]; decide) hrd).1
    rw [he, hpe]
    exact hinv.step_runs d.channels (by rw [hc3]; decide) hi px hkeep
  have hinit : RunsInv (d.width * d.height) 0 (start_state d) := by
    refine ⟨rfl, ?_, ?_⟩
    · unfold run_chunks
      have hA : ¬ (0 = d.width * d.height ∧ 0 % 62 ≠ 0) := fun hh => hh.2 rfl
      rw [if_neg hA]
      rfl
    · show (0 : Nat) = _
      split_ifs <;> rfl
  have key := steps_from_inv (RunsInv (d.width * d.height)) d.channels (d.width * d.height)
    (px_end_of d) data hnc hstep k 0 (start_state d) s (by omega) hinit
  rw [Nat.zero_mul, Nat.zero_add] at key
  exact key h

/-- The whole buffer returned for three-channel input. -/
theorem rgb_output (data : go_bytes) (d : qoi_desc) (out_len : Option Nat) (bytes : List Nat)
    (L : Nat) (hc3 : d.channels = 3) (h : qoi_encode data (some d) out_len = Res.ok (bytes, L)) :
    L = 22 + (d.width * d.height + 61) / 62 ∧
    bytes = header_bytes d ++ List.replicate (d.width * d.height / 62) 0xfd ++
      (if d.width * d.height % 62 = 0 then [] else [0xc0 + d.width * d.height % 62 - 1]) ++
      qoi_padding ++ List.replicate (d.width * d.height * (d.channels + 1) + 22 - L) 0 := by
  obtain ⟨st1, hs, hb1, hp1⟩ := qoi_encode_ok_state data (some d) out_len bytes L h
  obtain ⟨d1, st, hd, hv, hsa, ht, hch, hrun, hp, hb⟩ :=
    qoi_encode_state_final data (some d) out_len st1 hs
  injection hd with hd
  subst hd
  obtain ⟨-, hchunks, -⟩ := state_after_runs data d hv hc3 _ (Nat.le_refl _) st hsa
  obtain ⟨⟨-, hpp⟩, -⟩ := ht
  rw [hchunks, chunk_bytes_run_chunks, header_bytes_length] at hpp
  have hL : L = 22 + (d.width * d.height + 61) / 62 := by
    rw [← hp1, hp, hpp]
    simp only [List.length_append, List.length_replicate]
    split_ifs with h0
    · simp only [List.length_nil]; omega
    · simp only [List.length_cons, List.length_nil]; omega
  refine ⟨hL, ?_⟩
  rw [← hb1, hb, hchunks, chunk_bytes_run_chunks, ← hp1, hp]
  simp only [List.append_assoc]

theorem loop_count_eq (c n : Nat) (hc : 0 < c) (hn : n * c < 4294967296) :
    ∀ (fuel i : Nat), i ≤ n → n ≤ i + fuel →
      loop_count c (n * c) fuel (i * c) = some (n - i) := by
  intro fuel
  induction fuel with
  | zero =>
    intro i hi hf
    have e : i = n := by omega
    subst e
    simp [loop_count]
  | succ fuel ih =>
    intro i hi hf
    unfold loop_count
    by_cases hlt : i < n
    · rw [if_pos (Nat.mul_lt_mul_of_pos_right hlt hc)]
      have hle : (i + 1) * c ≤ n * c := Nat.mul_le_mul_right c hlt
      have e : u32 (i * c + c) = (i + 1) * c := by
        unfold u32
        rw [Nat.succ_mul]
        rw [Nat.succ_mul] at hle
        omega
      rw [e, ih (i + 1) hlt (by omega)]
      simp only [Option.map_some', Option.some.injEq]
      omega
    · have e : i = n := by omega
      subst e
      rw [if_neg (Nat.lt_irrefl _)]
      simp

/-! ## The explicit encodings -/

theorem sdiff8_eq (x y : Nat) : int8_of_byte (sub8 x y) = sdiff8 x y := by
  unfold int8_of_byte sub8 int8 sdiff8
  simp only [Int.ofNat_eq_coe]
  omega

/-- The kind and size of the chunk of an explicit encoding: RGBA when the
alpha differs, else Diff when the pixel fits one, else Luma when it fits
one, else RGB. -/
theorem explicit_chunk_kind (prev px : qoi_rgba_t) :
    ((explicit_chunk prev px).kind = ChunkKind.rgba ↔ px.rgba.a ≠ prev.rgba.a) ∧
    ((explicit_chunk prev px).kind = ChunkKind.diff ↔
      px.rgba.a = prev.rgba.a ∧ fits_diff prev.rgba px.rgba) ∧
    ((explicit_chunk prev px).kind = ChunkKind.luma ↔
      px.rgba.a = prev.rgba.a ∧ ¬ fits_diff prev.rgba px.rgba ∧ fits_luma prev.rgba px.rgba) ∧
    ((explicit_chunk prev px).kind = ChunkKind.rgb ↔
      px.rgba.a = prev.rgba.a ∧ ¬ fits_diff prev.rgba px.rgba ∧
        ¬ fits_luma prev.rgba px.rgba) ∧
    (explicit_chunk prev px).bytes.length = kind_size (explicit_chunk prev px).kind := by
  unfold explicit_chunk
  simp only [sdiff8_eq]
  have hD : (sdiff8 px.rgba.r prev.rgba.r > -3 ∧ sdiff8 px.rgba.r prev.rgba.r < 2 ∧
      sdiff8 px.rgba.g prev.rgba.g > -3 ∧ sdiff8 px.rgba.g prev.rgba.g < 2 ∧
      sdiff8 px.rgba.b prev.rgba.b > -3 ∧ sdiff8 px.rgba.b prev.rgba.b < 2) ↔
      fits_diff prev.rgba px.rgba := by
    unfold fits_diff
    omega
  have hL : (int8 (sdiff8 px.rgba.r prev.rgba.r - sdiff8 px.rgba.g prev.rgba.g) > -9 ∧
      int8 (sdiff8 px.rgba.r prev.rgba.r - sdiff8 px.rgba.g prev.rgba.g) < 8 ∧
      sdiff8 px.rgba.g prev.rgba.g > -33 ∧ sdiff8 px.rgba.g prev.rgba.g < 32 ∧
      int8 (sdiff8 px.rgba.b prev.rgba.b - sdiff8 px.rgba.g prev.rgba.g) > -9 ∧
      int8 (sdiff8 px.rgba.b prev.rgba.b - sdiff8 px.rgba.g prev.rgba.g) < 8) ↔
      fits_luma prev.rgba px.rgba := by
    unfold fits_luma
    omega
  by_cases ha : px.rgba.a = prev.rgba.a
  · rw [if_pos ha]
    split
    · rename_i hd
      have hd1 := hD.mp hd
      simp [ha, hd1, kind_size]
    · rename_i hd
      have hd1 : ¬ fits_diff prev.rgba px.rgba := fun hh => hd (hD.mpr hh)
      split
      · rename_i hl
        have hl1 := hL.mp hl
        simp [ha, hd1, hl1, kind_size]
      · rename_i hl
        have hl1 : ¬ fits_luma prev.rgba px.rgba := fun hh => hl (hL.mpr hh)
        simp [ha, hd1, hl1, kind_size]
  · rw [if_neg ha]
    simp [ha, kind_size]

theorem decode_one_diff (t : Nat) (s : DecState) (h1 : 64 ≤ t) (h2 : t ≤ 127) :
    decode_chunks 1 1 [t] s = some
      ([{ r := (s.prev.r + t / 16 % 4 + 254) % 256,
          g := (s.prev.g + t / 4 % 4 + 254) % 256,
          b := (s.prev.b + t % 4 + 254) % 256,
          a := s.prev.a }], []) := by
  unfold decode_chunks
  simp only
  rw [if_neg (by omega), if_neg (by omega), if_neg (by omega), if_pos (by omega)]
  simp [decode_chunks]

theorem decode_one_luma (t u : Nat) (s : DecState) (h1 : 128 ≤ t) (h2 : t ≤ 191) :
    decode_chunks 1 1 [t, u] s = some
      ([{ r := (s.prev.r + t % 64 + u / 16 + 216) % 256,
          g := (s.prev.g + t % 64 + 224) % 256,
          b := (s.prev.b + t % 64 + u % 16 + 216) % 256,
          a := s.prev.a }], []) := by
  unfold decode_chunks
  simp only
  rw [if_neg (by omega), if_neg (by omega), if_neg (by omega), if_neg (by omega),
    if_pos (by omega)]
  simp [decode_chunks]

theorem decode_one_rgb (r g b : Nat) (s : DecState) :
    decode_chunks 1 1 [0xfe, r, g, b] s =
      some ([{ r := r, g := g, b := b, a := s.prev.a }], []) := by
  simp [decode_chunks]

theorem decode_one_rgba (r g b a : Nat) (s : DecState) :
    decode_chunks 1 1 [0xff, r, g, b, a] s = some ([{ r := r, g := g, b := b, a := a }], []) := by
  simp [decode_chunks]

/-- The bytes of an explicit encoding decode, under the per-chunk rules of
the specification applied to the previous pixel, to the current pixel. -/
theorem explicit_chunk_decodes (prev px : qoi_rgba_t)
    (hpx : px.rgba.r < 256 ∧ px.rgba.g < 256 ∧ px.rgba.b < 256 ∧ px.rgba.a < 256)
    (hprev : prev.rgba.r < 256 ∧ prev.rgba.g < 256 ∧ prev.rgba.b < 256 ∧ prev.rgba.a < 256)
    (cache : Nat → rgba_t) :
    decode_chunks 1 1 (explicit_chunk prev px).bytes { prev := prev.rgba, cache := cache } =
      some ([px.rgba], []) := by
  obtain ⟨⟨r, g, b, a⟩, v⟩ := px
  obtain ⟨⟨r1, g1, b1, a1⟩, v1⟩ := prev
  simp only at hpx hprev
  obtain ⟨hr, hg, hb, -⟩ := hpx
  obtain ⟨hr1, hg1, hb1, -⟩ := hprev
  unfold explicit_chunk
  simp only [sdiff8_eq]
  split
  · rename_i ha
    split
    · rename_i hd
      obtain ⟨h1, h2, h3, h4, h5, h6⟩ := hd
      rw [diff_byte_eq _ _ _ ⟨h1, h2⟩ ⟨h3, h4⟩ ⟨h5, h6⟩]
      rw [decode_one_diff _ _ (by omega) (by omega)]
      simp only [Option.some.injEq, Prod.mk.injEq, List.cons.injEq, rgba_t.mk.injEq, and_true]
      unfold sdiff8 at h1 h2 h3 h4 h5 h6 ⊢
      refine ⟨by omega, by omega, by omega, ha.symm⟩
    · split
      · rename_i hl
        obtain ⟨h1, h2, h3, h4, h5, h6⟩ := hl
        rw [luma_byte1_eq _ ⟨h3, h4⟩, luma_byte2_eq _ _ ⟨h1, h2⟩ ⟨h5, h6⟩]
        rw [decode_one_luma _ _ _ (by omega) (by omega)]
        simp only [Option.some.injEq, Prod.mk.injEq, List.cons.injEq, rgba_t.mk.injEq, and_true]
        unfold int8 at h1 h2 h5 h6 ⊢
        unfold sdiff8 at h1 h2 h3 h4 h5 h6 ⊢
        refine ⟨by omega, by omega, by omega, ha.symm⟩
      · rw [show QOI_OP_RGB = 0xfe from rfl, decode_one_rgb]
        simp only [Option.some.injEq, Prod.mk.injEq, List.cons.injEq, rgba_t.mk.injEq, and_true,
          true_and]
        exact ha.symm
  · rw [show QOI_OP_RGBA = 0xff from rfl, decode_one_rgba]

theorem encode_pixel_total_of_read (c px_end : Nat) (data : go_bytes) (pos : Nat)
    (st : EncState) (px : qoi_rgba_t) (hr : read_pixel c data pos st.px = some px)
    (hp : st.p + 6 ≤ st.bytes.length) : ∃ st1, encode_pixel c px_end data pos st = some st1 := by
  unfold encode_pixel
  simp only [hr, Option.bind_eq_bind, Option.some_bind]
  by_cases hrun : px.v = st.px_prev.v
  · simp only [hrun, if_true]
    split
    · obtain ⟨st2, h2⟩ := flush_run_total { st with px := px, run := u8 (st.run + 1) }
        (by show st.p + 1 ≤ st.bytes.length; omega)
      rw [h2]; exact ⟨_, rfl⟩
    · exact ⟨_, rfl⟩
  · simp only [hrun, if_false]
    by_cases hrun0 : st.run > 0
    · simp only [hrun0, if_true]
      obtain ⟨st2, h2⟩ := flush_run_total { st with px := px }
        (by show st.p + 1 ≤ st.bytes.length; omega)
      obtain ⟨hw2, -⟩ := flush_run_some _ _ h2
      have hl := hw2.length_eq
      obtain ⟨-, -, hp2, -, -⟩ := hw2
      dsimp only at hl hp2
      simp only [List.length_cons, List.length_nil] at hp2
      obtain ⟨st3, h3⟩ := encode_lookup_total st2 px (by omega)
      rw [h2]; simp only [Option.some_bind]; rw [h3]; exact ⟨_, rfl⟩
    · simp only [hrun0, if_false, Option.some_bind]
      obtain ⟨st3, h3⟩ := encode_lookup_total { st with px := px } px
        (by show st.p + 5 ≤ st.bytes.length; omega)
      rw [h3]; exact ⟨_, rfl⟩

/-! ## The claims -/

/-- C1 (round trip), evaluated on the 2x1 RGBA image (10,20,30,255),
(50,60,70,255) and on the 1x1 RGB image (1,2,3).  Both calls succeed.  The
decoder of the specification rejects either output, whose first four bytes
are not the magic constant; and the Chunk Decoder of the specification,
applied to the bytes after the header, returns (10,20,30,255) twice for the
first image and (0,0,0) for the second, not the pixels that were encoded. -/
theorem round_trip_broken :
    (∃ bytes L, qoi_encode (lit [10, 20, 30, 255, 50, 60, 70, 255]) (some ⟨2, 1, 4, 0⟩) (some 0) =
        Res.ok (bytes, L) ∧
      qoi_decode (bytes.take L) 0 = none ∧
      decode_body ((bytes.take L).drop 14) 2 4 =
        some ([10, 20, 30, 255, 10, 20, 30, 255], qoi_padding)) ∧
    (∃ bytes L, qoi_encode (lit [1, 2, 3]) (some ⟨1, 1, 3, 0⟩) (some 0) = Res.ok (bytes, L) ∧
      qoi_decode (bytes.take L) 0 = none ∧
      decode_body ((bytes.take L).drop 14) 1 3 = some ([0, 0, 0], qoi_padding)) :=
  ⟨⟨[0, 0, 0, 102, 0, 0, 0, 2, 0, 0, 0, 1, 4, 0, 254, 10, 20, 30, 192, 0, 0, 0, 0, 0, 0, 0, 1,
      0, 0, 0, 0, 0], 27, by decide, by decide, by decide⟩,
   ⟨[0, 0, 0, 102, 0, 0, 0, 1, 0, 0, 0, 1, 3, 0, 192, 0, 0, 0, 0, 0, 0, 0, 1, 0, 0, 0], 23,
      by decide, by decide, by decide⟩⟩

/-- C2, as stated, fails on the one-byte buffer [1] (length 1, capacity 1)
with the descriptor 1x1, four channels, colorspace 0: none of the listed
conditions holds, yet the call returns no buffer, because the slice
`pixels[0:4]` is out of range and the call panics. -/
theorem short_buffer_panics :
    (lit [1]).len ≠ 0 ∧ (1 : Nat) ≠ 0 ∧ ¬ ((4 : Nat) < 3) ∧ ¬ ((4 : Nat) > 4) ∧
      ¬ ((0 : Nat) > 1) ∧ ¬ ((1 : Nat) ≥ 400000000 / 1) ∧
      qoi_encode (lit [1]) (some ⟨1, 1, 4, 0⟩) (some 0) = Res.panic := by
  decide

/-- C2, amended: `qoi_encode` returns the failure value if and only if the
buffer is empty (length 0), the descriptor or the length out-parameter is
absent, width = 0, height = 0, channels < 3, channels > 4, colorspace > 1, or
height >= 400000000 / width.  In every other case the outcome is decided by
whether the input covers the width*height*channels bytes of the pixels,
counted against the capacity of the buffer with four channels (the pixel is
read through a slice expression) and against its length with three (it is
read through index expressions): if it does, the call returns a buffer and a
length; if it does not, the call panics. -/
theorem qoi_encode_failure_iff (data : go_bytes) (desc : Option qoi_desc)
    (out_len : Option Nat) :
    (qoi_encode data desc out_len = Res.failure ↔
      (data.len = 0 ∨ out_len = none ∨ desc = none ∨
        ∃ d, desc = some d ∧ (d.width = 0 ∨ d.height = 0 ∨ d.channels < 3 ∨ d.channels > 4 ∨
          d.colorspace > 1 ∨ d.height ≥ 400000000 / d.width))) ∧
    (∀ d, desc = some d → data.len ≠ 0 → out_len ≠ none →
      ¬ (d.width = 0 ∨ d.height = 0 ∨ d.channels < 3 ∨ d.channels > 4 ∨
          d.colorspace > 1 ∨ d.height ≥ 400000000 / d.width) →
      (d.width * d.height * d.channels ≤
          (if d.channels = 4 then data.arr.length else data.len) →
        ∃ bytes L, qoi_encode data desc out_len = Res.ok (bytes, L)) ∧
      (¬ (d.width * d.height * d.channels ≤
          (if d.channels = 4 then data.arr.length else data.len)) →
        qoi_encode data desc out_len = Res.panic)) := by
  constructor
  · cases desc with
    | none => simp [qoi_encode, qoi_encode_state]
    | some d =>
      rw [qoi_encode_failure_iff_rejects]
      constructor
      · intro hr
        have hnot : ¬ (data.len ≠ 0 ∧ out_len ≠ none ∧ Valid d) := by
          intro hc
          rw [(rejects_eq_false_iff data d out_len).mpr hc] at hr
          cases hr
        by_cases h1 : data.len = 0
        · exact Or.inl h1
        by_cases h2 : out_len = none
        · exact Or.inr (Or.inl h2)
        refine Or.inr (Or.inr (Or.inr ⟨d, rfl, ?_⟩))
        by_contra hc
        apply hnot
        refine ⟨h1, h2, ?_⟩
        unfold Valid
        omega
      · intro h
        cases hr : rejects data (some d) out_len with
        | true => rfl
        | false =>
          obtain ⟨h1, h2, hv⟩ := (rejects_eq_false_iff data d out_len).mp hr
          rcases h with h | h | h | ⟨d1, hd, h⟩
          · exact absurd h h1
          · exact absurd h h2
          · cases h
          · injection hd with hd
            subst hd
            unfold Valid at hv
            omega
  · intro d hd h1 h2 hc
    subst hd
    have hv : Valid d := by
      unfold Valid
      omega
    constructor
    · intro hlen
      obtain ⟨bytes, L, h, -⟩ := qoi_encode_total data d out_len hv h2 h1 hlen
      exact ⟨bytes, L, h⟩
    · intro hlen
      exact qoi_encode_panic data d out_len hv h2 h1 hlen

/-- C2 amended, at three inputs.  The 1x1 three-channel image [1,2,3]: the
call returns a buffer.  A buffer of length 1 and capacity 8 with the
descriptor 1x1, four channels: the capacity covers the four bytes of the
pixel, and the call returns a buffer.  A buffer of length 2 and capacity 8
with the descriptor 1x1, three channels: the length does not cover the three
bytes of the pixel, and the call panics. -/
theorem qoi_encode_failure_iff_witness :
    (∃ bytes L, qoi_encode (lit [1, 2, 3]) (some ⟨1, 1, 3, 0⟩) (some 0) = Res.ok (bytes, L)) ∧
    (∃ bytes L, qoi_encode (spare_capacity 1) (some ⟨1, 1, 4, 0⟩) (some 0) =
      Res.ok (bytes, L)) ∧
    qoi_encode (spare_capacity 2) (some ⟨1, 1, 3, 0⟩) (some 0) = Res.panic :=
  ⟨((qoi_encode_failure_iff (lit [1, 2, 3]) (some ⟨1, 1, 3, 0⟩) (some 0)).2 ⟨1, 1, 3, 0⟩ rfl
      (by decide) (by decide) (by decide)).1 (by decide),
   ((qoi_encode_failure_iff (spare_capacity 1) (some ⟨1, 1, 4, 0⟩) (some 0)).2 ⟨1, 1, 4, 0⟩ rfl
      (by decide) (by decide) (by decide)).1 (by decide),
   ((qoi_encode_failure_iff (spare_capacity 2) (some ⟨1, 1, 3, 0⟩) (some 0)).2 ⟨1, 1, 3, 0⟩ rfl
      (by decide) (by decide) (by decide)).2 (by decide)⟩

/-- C3, as stated, fails on the descriptors 1 x 400000000 and
3 x 133333333 (three channels, colorspace 0, a non-empty buffer):
width*height does not exceed 400,000,000, yet both are rejected. -/
theorem pixel_bound_rejects_below :
    (1 * 400000000 ≤ 400000000 ∧
      qoi_encode (lit [0]) (some ⟨1, 400000000, 3, 0⟩) (some 0) = Res.failure) ∧
    (3 * 133333333 ≤ 400000000 ∧
      qoi_encode (lit [0]) (some ⟨3, 133333333, 3, 0⟩) (some 0) = Res.failure) := by
  decide

/-- C3, amended: for a non-empty buffer, a present length out-parameter and
a descriptor with width > 0, height > 0, channels in {3,4}, colorspace in
{0,1}, `qoi_encode` fails exactly when height >= 400000000 / width; so it
fails whenever width*height >= 400,000,000, and whenever it does not fail
width*height < 400,000,000. -/
theorem qoi_encode_pixel_bound (data : go_bytes) (d : qoi_desc) (out_len : Option Nat)
    (hne : data.len ≠ 0) (ho : out_len ≠ none) (hw : 0 < d.width) (hh : 0 < d.height)
    (hc : d.channels = 3 ∨ d.channels = 4) (hcs : d.colorspace ≤ 1) :
    (qoi_encode data (some d) out_len = Res.failure ↔ d.height ≥ 400000000 / d.width) ∧
    (400000000 ≤ d.width * d.height → qoi_encode data (some d) out_len = Res.failure) ∧
    (qoi_encode data (some d) out_len ≠ Res.failure → d.width * d.height < 400000000) := by
  have key : qoi_encode data (some d) out_len = Res.failure ↔
      d.height ≥ 400000000 / d.width := by
    rw [qoi_encode_failure_iff_rejects]
    constructor
    · intro hr
      by_contra hlt
      have hv : Valid d := ⟨hw, hh, hc, hcs, by omega⟩
      rw [(rejects_eq_false_iff data d out_len).mpr ⟨hne, ho, hv⟩] at hr
      cases hr
    · intro hge
      cases hr : rejects data (some d) out_len with
      | true => rfl
      | false =>
        obtain ⟨-, -, hv⟩ := (rejects_eq_false_iff data d out_len).mp hr
        unfold Valid at hv
        omega
  have small : ¬ (d.height ≥ 400000000 / d.width) → d.width * d.height < 400000000 := by
    intro hlt
    have hv : Valid d := ⟨hw, hh, hc, hcs, by omega⟩
    exact hv.pixels_lt
  refine ⟨key, ?_, ?_⟩
  · intro hbig
    rw [key]
    by_contra hlt
    have := small hlt
    omega
  · intro hnf
    exact small (fun hge => hnf (key.mpr hge))

/-- C3 amended, at the descriptor 3 x 133333333: height equals
400000000 / 3, and the call fails. -/
theorem qoi_encode_pixel_bound_witness :
    (133333333 : Nat) ≥ 400000000 / 3 ∧
      qoi_encode (lit [0]) (some ⟨3, 133333333, 3, 0⟩) (some 0) = Res.failure :=
  ⟨by decide, (qoi_encode_pixel_bound (lit [0]) ⟨3, 133333333, 3, 0⟩ (some 0) (by decide) (by decide)
    (by decide) (by decide) (by decide) (by decide)).1.mpr (by decide)⟩

/-- C4 fails on every accepted input: the first four output bytes are
0x00 0x00 0x00 0x66, not the magic constant 0x71 0x69 0x6f 0x66, because
`bytes_to_uint32` shifts and adds in 8-bit arithmetic and so returns only the
last byte of the magic. -/
theorem magic_bytes_written (data : go_bytes) (desc : Option qoi_desc) (out_len : Option Nat)
    (bytes : List Nat) (L : Nat) (h : qoi_encode data desc out_len = Res.ok (bytes, L)) :
    bytes.take 4 = [0x00, 0x00, 0x00, 0x66] ∧ bytes.take 4 ≠ QOI_MAGIC := by
  obtain ⟨d, -, -, hH⟩ := qoi_encode_ok_header data desc out_len bytes L h
  have e : bytes.take 4 = (bytes.take 14).take 4 := by
    rw [List.take_take]
    rfl
  have e4 : bytes.take 4 = [0x00, 0x00, 0x00, 0x66] := by
    rw [e, hH]
    rfl
  rw [e4]
  exact ⟨rfl, by decide⟩

/-- C4 at the 1x1 RGBA image (1,2,3,4): the call is accepted and its output
starts 0x00 0x00 0x00 0x66. -/
theorem magic_bytes_written_witness :
    qoi_encode (lit [1, 2, 3, 4]) (some ⟨1, 1, 4, 0⟩) (some 0) =
        Res.ok ([0, 0, 0, 102, 0, 0, 0, 1, 0, 0, 0, 1, 4, 0, 255, 1, 2, 3, 4, 0, 0, 0, 0, 0, 0,
          0, 1], 27) ∧
      ([0, 0, 0, 102, 0, 0, 0, 1, 0, 0, 0, 1, 4, 0, 255, 1, 2, 3, 4, 0, 0, 0, 0, 0, 0,
          0, 1] : List Nat).take 4 = [0x00, 0x00, 0x00, 0x66] :=
  ⟨by decide, (magic_bytes_written (lit [1, 2, 3, 4]) (some ⟨1, 1, 4, 0⟩) (some 0)
    [0, 0, 0, 102, 0, 0, 0, 1, 0, 0, 0, 1, 4, 0, 255, 1, 2, 3, 4, 0, 0, 0, 0, 0, 0, 0, 1] 27
    (by decide)).1⟩

/-- C5 (header fidelity): for every accepted input, output bytes 4..7 are
the big-endian encoding of the width, bytes 8..11 that of the height, byte
12 is the channel count and byte 13 the colorspace; reading the two
big-endian fields back gives the width and the height exactly. -/
theorem header_fidelity (data : go_bytes) (desc : Option qoi_desc) (out_len : Option Nat)
    (bytes : List Nat) (L : Nat) (h : qoi_encode data desc out_len = Res.ok (bytes, L)) :
    ∃ d, desc = some d ∧
      (bytes.drop 4).take 4 = be32 d.width ∧ (bytes.drop 8).take 4 = be32 d.height ∧
      bytes[12]? = some d.channels ∧ bytes[13]? = some d.colorspace ∧
      from_be32 ((bytes.drop 4).take 4) = some d.width ∧
      from_be32 ((bytes.drop 8).take 4) = some d.height := by
  obtain ⟨d, hd, hv, hH⟩ := qoi_encode_ok_header data desc out_len bytes L h
  have hn := hv.pixels_lt
  obtain ⟨hw, hh, -, -, -⟩ := hv
  have hwlt : d.width < 4294967296 := by
    have := Nat.le_mul_of_pos_right d.width hh
    omega
  have hhlt : d.height < 4294967296 := by
    have := Nat.le_mul_of_pos_left d.height hw
    omega
  have e1 : (bytes.drop 4).take 4 = be32 d.width := by
    rw [take_drop_of_take bytes 14 4 4 (by decide), hH, ← uint32_to_bytes_eq]
    rfl
  have e2 : (bytes.drop 8).take 4 = be32 d.height := by
    rw [take_drop_of_take bytes 14 8 4 (by decide), hH, ← uint32_to_bytes_eq]
    rfl
  have e3 : bytes[12]? = some d.channels := by
    rw [← List.getElem?_take_of_lt (by decide : 12 < 14), hH]
    rfl
  have e4 : bytes[13]? = some d.colorspace := by
    rw [← List.getElem?_take_of_lt (by decide : 13 < 14), hH]
    rfl
  refine ⟨d, hd, e1, e2, e3, e4, ?_, ?_⟩
  · rw [e1]; exact from_be32_be32 _ hwlt
  · rw [e2]; exact from_be32_be32 _ hhlt

/-- C5 at the 1x1 three-channel image [1,2,3]: bytes 4..7 and 8..11 of
the output are 0,0,0,1, byte 12 is 3 and byte 13 is 0. -/
theorem header_fidelity_witness :
    qoi_encode (lit [1, 2, 3]) (some ⟨1, 1, 3, 0⟩) (some 0) =
        Res.ok ([0, 0, 0, 102, 0, 0, 0, 1, 0, 0, 0, 1, 3, 0, 192, 0, 0, 0, 0, 0, 0, 0, 1,
          0, 0, 0], 23) ∧
      ∃ d, some (⟨1, 1, 3, 0⟩ : qoi_desc) = some d ∧
        (([0, 0, 0, 102, 0, 0, 0, 1, 0, 0, 0, 1, 3, 0, 192, 0, 0, 0, 0, 0, 0, 0, 1,
          0, 0, 0] : List Nat).drop 4).take 4 = be32 d.width ∧
        (([0, 0, 0, 102, 0, 0, 0, 1, 0, 0, 0, 1, 3, 0, 192, 0, 0, 0, 0, 0, 0, 0, 1,
          0, 0, 0] : List Nat).drop 8).take 4 = be32 d.height ∧
        ([0, 0, 0, 102, 0, 0, 0, 1, 0, 0, 0, 1, 3, 0, 192, 0, 0, 0, 0, 0, 0, 0, 1,
          0, 0, 0] : List Nat)[12]? = some d.channels ∧
        ([0, 0, 0, 102, 0, 0, 0, 1, 0, 0, 0, 1, 3, 0, 192, 0, 0, 0, 0, 0, 0, 0, 1,
          0, 0, 0] : List Nat)[13]? = some d.colorspace ∧
        from_be32 ((([0, 0, 0, 102, 0, 0, 0, 1, 0, 0, 0, 1, 3, 0, 192, 0, 0, 0, 0, 0, 0, 0, 1,
          0, 0, 0] : List Nat).drop 4).take 4) = some d.width ∧
        from_be32 ((([0, 0, 0, 102, 0, 0, 0, 1, 0, 0, 0, 1, 3, 0, 192, 0, 0, 0, 0, 0, 0, 0, 1,
          0, 0, 0] : List Nat).drop 8).take 4) = some d.height :=
  ⟨by decide,
    header_fidelity (lit [1, 2, 3]) (some ⟨1, 1, 3, 0⟩) (some 0)
      [0, 0, 0, 102, 0, 0, 0, 1, 0, 0, 0, 1, 3, 0, 192, 0, 0, 0, 0, 0, 0, 0, 1,
          0, 0, 0] 23 (by decide)⟩

/-- C6 (end marker): for every accepted input the reported length `L` is at
least 22 and within the buffer, the eight bytes at positions L-8 .. L-1 are
0,0,0,0,0,0,0,1, and they start at the cursor the pixel loop ended with,
directly after the last chunk byte; the bytes before them are those the
loop left. -/
theorem end_marker_written (data : go_bytes) (desc : Option qoi_desc) (out_len : Option Nat)
    (bytes : List Nat) (L : Nat) (h : qoi_encode data desc out_len = Res.ok (bytes, L)) :
    22 ≤ L ∧ L ≤ bytes.length ∧ (bytes.drop (L - 8)).take 8 = [0, 0, 0, 0, 0, 0, 0, 1] ∧
      ∃ d st, desc = some d ∧ encode_pixels data d = Res.ok st ∧ L = st.p + 8 ∧
        bytes.take st.p = st.bytes.take st.p := by
  obtain ⟨d, st, hd, hr, hp, h8, hb, hL⟩ := qoi_encode_ok data desc out_len bytes L h
  obtain ⟨hM, h14, hH⟩ := encode_pixels_keeps data d st hp
  have hlen : (st.bytes.take st.p).length = st.p := by
    simp only [List.length_take]
    omega
  have hbl : bytes.length = st.bytes.length := by
    rw [hb]
    simp only [List.length_append, List.length_take, List.length_drop, qoi_padding,
      List.length_cons, List.length_nil]
    omega
  refine ⟨by omega, by omega, ?_, d, st, hd, hp, hL, ?_⟩
  · have e : L - 8 = st.p := by omega
    rw [e, hb, List.append_assoc, List.drop_left' hlen]
    rfl
  · rw [hb, List.append_assoc, List.take_left' hlen]

/-- C6 at the 1x1 three-channel image [1,2,3]: 23 bytes are written and
bytes 15..22 are the end marker. -/
theorem end_marker_written_witness :
    qoi_encode (lit [1, 2, 3]) (some ⟨1, 1, 3, 0⟩) (some 0) =
        Res.ok ([0, 0, 0, 102, 0, 0, 0, 1, 0, 0, 0, 1, 3, 0, 192, 0, 0, 0, 0, 0, 0, 0, 1,
          0, 0, 0], 23) ∧
      22 ≤ 23 ∧
      (([0, 0, 0, 102, 0, 0, 0, 1, 0, 0, 0, 1, 3, 0, 192, 0, 0, 0, 0, 0, 0, 0, 1,
          0, 0, 0] : List Nat).drop (23 - 8)).take 8 = [0, 0, 0, 0, 0, 0, 0, 1] :=
  ⟨by decide,
    (end_marker_written (lit [1, 2, 3]) (some ⟨1, 1, 3, 0⟩) (some 0)
      [0, 0, 0, 102, 0, 0, 0, 1, 0, 0, 0, 1, 3, 0, 192, 0, 0, 0, 0, 0, 0, 0, 1,
          0, 0, 0] 23 (by decide)).1,
    (end_marker_written (lit [1, 2, 3]) (some ⟨1, 1, 3, 0⟩) (some 0)
      [0, 0, 0, 102, 0, 0, 0, 1, 0, 0, 0, 1, 3, 0, 192, 0, 0, 0, 0, 0, 0, 0, 1,
          0, 0, 0] 23 (by decide)).2.2.1⟩

/-- C7 (output bound): for every descriptor that passes the guard and every
buffer of exactly width*height*channels bytes, `qoi_encode` returns: no byte
write falls outside the buffer (a write at a position not below the buffer
length is a panic in this model), the buffer has
width*height*(channels+1) + 14 + 8 bytes, and the reported length is at most
that. -/
theorem write_cursor_in_bounds (data : go_bytes) (d : qoi_desc) (out_len : Option Nat)
    (ho : out_len ≠ none) (hw : 0 < d.width) (hh : 0 < d.height)
    (hc : d.channels = 3 ∨ d.channels = 4) (hcs : d.colorspace ≤ 1)
    (hpx : d.height < 400000000 / d.width)
    (hlen : data.len = d.width * d.height * d.channels) :
    ∃ bytes L, qoi_encode data (some d) out_len = Res.ok (bytes, L) ∧
      bytes.length = d.width * d.height * (d.channels + 1) + 14 + 8 ∧
      L ≤ d.width * d.height * (d.channels + 1) + 14 + 8 :=
  qoi_encode_total data d out_len ⟨hw, hh, hc, hcs, hpx⟩ ho
    (covers_of_len data d ⟨hw, hh, hc, hcs, hpx⟩ hlen).1
    (covers_of_len data d ⟨hw, hh, hc, hcs, hpx⟩ hlen).2

/-- C7 at the 2x1 RGBA image (10,20,30,255), (50,60,70,255): the call
returns a buffer of 2*1*5 + 22 = 32 bytes and a length within it. -/
theorem write_cursor_in_bounds_witness :
    ∃ bytes L, qoi_encode (lit [10, 20, 30, 255, 50, 60, 70, 255]) (some ⟨2, 1, 4, 0⟩) (some 0) =
        Res.ok (bytes, L) ∧ bytes.length = 2 * 1 * (4 + 1) + 14 + 8 ∧
      L ≤ 2 * 1 * (4 + 1) + 14 + 8 :=
  write_cursor_in_bounds (lit [10, 20, 30, 255, 50, 60, 70, 255]) ⟨2, 1, 4, 0⟩ (some 0) (by decide)
    (by decide) (by decide) (by decide) (by decide) (by decide) (by decide)

/-- C8 (cache slot): the slot `QOI_COLOR_HASH(px) % 64` computed with 8-bit
products and sums equals (r*3 + g*5 + b*7 + a*11) mod 64 over the unbounded
integers, and lies in 0..63. -/
theorem color_hash_slot (px : qoi_rgba_t) :
    QOI_COLOR_HASH px % 64 =
        (px.rgba.r * 3 + px.rgba.g * 5 + px.rgba.b * 7 + px.rgba.a * 11) % 64 ∧
      QOI_COLOR_HASH px % 64 < 64 := by
  unfold QOI_COLOR_HASH u32 u8
  omega

/-- C9 fails in both directions.  In the 2x1 RGBA image (10,20,30,255),
(50,60,70,255) the second pixel differs from the first in r, g and b and is
nevertheless counted in a run; so is the single pixel (1,2,3,0), which
differs from the initial previous pixel (0,0,0,255) in every channel.  The
single pixel (0,0,0,255), equal to the initial previous pixel, is not
absorbed: it gets a Diff chunk. -/
theorem run_test_compares_scalar_only :
    qoi_encode_chunks (lit [10, 20, 30, 255, 50, 60, 70, 255]) (some ⟨2, 1, 4, 0⟩) (some 0) =
        Res.ok [⟨ChunkKind.rgb, [0xfe, 10, 20, 30]⟩, ⟨ChunkKind.run, [0xc0]⟩] ∧
    qoi_encode_chunks (lit [1, 2, 3, 0]) (some ⟨1, 1, 4, 0⟩) (some 0) =
        Res.ok [⟨ChunkKind.run, [0xc0]⟩] ∧
    qoi_encode_chunks (lit [0, 0, 0, 255]) (some ⟨1, 1, 4, 0⟩) (some 0) =
        Res.ok [⟨ChunkKind.diff, [0x6a]⟩] := by
  decide

/-- C10 fails on the 2x1 RGBA image (10,20,30,255), (1,2,3,0): after the
first pixel the cache slot 34 still holds the zero pixel (0,0,0,0); the
second pixel (1,2,3,0) hashes to slot 34 and is emitted as the Index chunk
0x22, although the slot does not hold it. -/
theorem index_chunk_for_absent_pixel :
    (state_after (lit [10, 20, 30, 255, 1, 2, 3, 0]) ⟨2, 1, 4, 0⟩ 1).map
        (fun st => (st.index 34).rgba) = some ⟨0, 0, 0, 0⟩ ∧
    QOI_COLOR_HASH ⟨⟨1, 2, 3, 0⟩, 0⟩ % 64 = 34 ∧
    (state_after (lit [10, 20, 30, 255, 1, 2, 3, 0]) ⟨2, 1, 4, 0⟩ 2).map
        (fun st => (st.px.rgba, (st.index 34).rgba, st.chunks)) =
      some (⟨1, 2, 3, 0⟩, ⟨0, 0, 0, 0⟩,
        [⟨ChunkKind.rgb, [0xfe, 10, 20, 30]⟩, ⟨ChunkKind.index, [0x22]⟩]) ∧
    qoi_encode_chunks (lit [10, 20, 30, 255, 1, 2, 3, 0]) (some ⟨2, 1, 4, 0⟩) (some 0) =
      Res.ok [⟨ChunkKind.rgb, [0xfe, 10, 20, 30]⟩, ⟨ChunkKind.index, [0x22]⟩] := by
  decide

/-- C11 (no end-marker look-alike): in the chunk sequence of every accepted
input no Index chunk is directly followed by an Index chunk for the same
slot; in particular the sequence never contains 7 (or more) consecutive
Index chunks that all address slot 0. -/
theorem no_seven_index_zero (data : go_bytes) (desc : Option qoi_desc) (out_len : Option Nat)
    (chunks : List Chunk) (h : qoi_encode_chunks data desc out_len = Res.ok chunks) :
    NoRepeatIdx chunks ∧
    ∀ i, ¬ ∀ j, j < 7 → chunks[i + j]? = some { kind := ChunkKind.index, bytes := [0] } := by
  obtain ⟨st1, hs, hc⟩ := qoi_encode_chunks_ok data desc out_len chunks h
  obtain ⟨d, st, -, -, -, ht, hch, -⟩ := qoi_encode_state_final data desc out_len st1 hs
  have hnr : NoRepeatIdx chunks := by
    rw [← hc, hch]
    exact ht.2.2.2.2.2.2.1
  refine ⟨hnr, ?_⟩
  intro i hall
  exact hnr i 0 (hall 0 (by decide)) (hall 1 (by decide))

/-- C11 at the 2x1 RGBA image (10,20,30,255), (1,2,3,0), whose second pixel
is emitted as an Index chunk: the chunk sequence has no run of 7 Index
chunks for slot 0. -/
theorem no_seven_index_zero_witness :
    qoi_encode_chunks (lit [10, 20, 30, 255, 1, 2, 3, 0]) (some ⟨2, 1, 4, 0⟩) (some 0) =
        Res.ok [⟨ChunkKind.rgb, [0xfe, 10, 20, 30]⟩, ⟨ChunkKind.index, [0x22]⟩] ∧
      ∀ i, ¬ ∀ j, j < 7 →
        ([⟨ChunkKind.rgb, [0xfe, 10, 20, 30]⟩, ⟨ChunkKind.index, [0x22]⟩] : List Chunk)[i + j]? =
          some { kind := ChunkKind.index, bytes := [0] } :=
  ⟨by decide,
    (no_seven_index_zero (lit [10, 20, 30, 255, 1, 2, 3, 0]) (some ⟨2, 1, 4, 0⟩) (some 0)
      [⟨ChunkKind.rgb, [0xfe, 10, 20, 30]⟩, ⟨ChunkKind.index, [0x22]⟩] (by decide)).2⟩

/-- C12 fails for identical pixels with alpha 0.  The 2x1 RGBA image
(1,2,3,0), (1,2,3,0) is encoded as the single Run chunk 0xc1 of length 2:
there is no chunk for pixel 1, which differs from the initial previous
pixel (0,0,0,255), and the Chunk Decoder of the specification returns
(0,0,0,255) twice.  The example of the claim, (10,20,30,255) twice, is
encoded as the claim says: one RGB chunk, then the Run byte 0xc0. -/
theorem identical_pixels_alpha_zero :
    qoi_encode_chunks (lit [1, 2, 3, 0, 1, 2, 3, 0]) (some ⟨2, 1, 4, 0⟩) (some 0) =
        Res.ok [⟨ChunkKind.run, [0xc1]⟩] ∧
    decode_body [0xc1, 0, 0, 0, 0, 0, 0, 0, 1] 2 4 =
        some ([0, 0, 0, 255, 0, 0, 0, 255], qoi_padding) ∧
    qoi_encode_chunks (lit [10, 20, 30, 255, 10, 20, 30, 255]) (some ⟨2, 1, 4, 0⟩) (some 0) =
        Res.ok [⟨ChunkKind.rgb, [0xfe, 10, 20, 30]⟩, ⟨ChunkKind.run, [0xc0]⟩] := by
  decide

/-- C13 (tag ranges): every chunk emitted for an accepted input has the
length of its kind and starts with a byte in the range of its kind (Index
0x00..0x3f, Diff 0x40..0x7f, Luma 0x80..0xbf, Run 0xc0..0xfd, RGB 0xfe,
RGBA 0xff), and that byte is dispatched to the kind of the chunk; at the head
of every iteration the run counter is below 62, so that it never exceeds 62
when it is incremented. -/
theorem chunk_tags_in_range (data : go_bytes) (desc : Option qoi_desc) (out_len : Option Nat)
    (chunks : List Chunk) (h : qoi_encode_chunks data desc out_len = Res.ok chunks) :
    (∀ ch ∈ chunks, WellTagged ch ∧ ∃ t rest, ch.bytes = t :: rest ∧ tag_kind t = ch.kind) ∧
    ∃ d, desc = some d ∧ ∀ k s, k ≤ d.width * d.height → state_after data d k = some s →
      s.run < 62 ∧ u8 (s.run + 1) ≤ 62 := by
  obtain ⟨st1, hs, hc⟩ := qoi_encode_chunks_ok data desc out_len chunks h
  obtain ⟨d, st, hd, hv, -, ht, hch, -⟩ := qoi_encode_state_final data desc out_len st1 hs
  refine ⟨?_, d, hd, ?_⟩
  · rw [← hc, hch]
    exact ht.2.2.2.2.2.1
  · intro k s hk hsa
    have hr := (state_after_trace data d hv k hk s hsa).2.2.1
    unfold u8
    omega

/-- C13 at the 2x1 RGBA image (10,20,30,255), (50,60,70,255): the chunks
are an RGB chunk starting 0xfe and a Run chunk 0xc0. -/
theorem chunk_tags_in_range_witness :
    qoi_encode_chunks (lit [10, 20, 30, 255, 50, 60, 70, 255]) (some ⟨2, 1, 4, 0⟩) (some 0) =
        Res.ok [⟨ChunkKind.rgb, [0xfe, 10, 20, 30]⟩, ⟨ChunkKind.run, [0xc0]⟩] ∧
      ∀ ch ∈ ([⟨ChunkKind.rgb, [0xfe, 10, 20, 30]⟩, ⟨ChunkKind.run, [0xc0]⟩] : List Chunk),
        WellTagged ch ∧ ∃ t rest, ch.bytes = t :: rest ∧ tag_kind t = ch.kind :=
  ⟨by decide,
    (chunk_tags_in_range (lit [10, 20, 30, 255, 50, 60, 70, 255]) (some ⟨2, 1, 4, 0⟩) (some 0)
      [⟨ChunkKind.rgb, [0xfe, 10, 20, 30]⟩, ⟨ChunkKind.run, [0xc0]⟩] (by decide)).1⟩

/-- C14 (pixel coverage): for every descriptor that passes the guard and
every buffer of width*height*channels bytes the call returns; the bytes
between the 14 header bytes and the end marker are exactly the bytes of the
emitted chunks; the chunks stand for exactly width*height pixels (run length
for a Run chunk, one for any other chunk); and the run counter is 0 at the
end, so no run is left unflushed. -/
theorem pixel_coverage (data : go_bytes) (d : qoi_desc) (out_len : Option Nat)
    (ho : out_len ≠ none) (hw : 0 < d.width) (hh : 0 < d.height)
    (hc : d.channels = 3 ∨ d.channels = 4) (hcs : d.colorspace ≤ 1)
    (hpx : d.height < 400000000 / d.width)
    (hlen : data.len = d.width * d.height * d.channels) :
    ∃ st1, qoi_encode_state data (some d) out_len = Res.ok st1 ∧
      st1.bytes.take st1.p = header_bytes d ++ chunk_bytes st1.chunks ++ qoi_padding ∧
      covered st1.chunks = d.width * d.height ∧ st1.run = 0 := by
  obtain ⟨bytes, L, he, -⟩ := qoi_encode_total data d out_len ⟨hw, hh, hc, hcs, hpx⟩ ho
    (covers_of_len data d ⟨hw, hh, hc, hcs, hpx⟩ hlen).1
    (covers_of_len data d ⟨hw, hh, hc, hcs, hpx⟩ hlen).2
  obtain ⟨st1, hs, -, -⟩ := qoi_encode_ok_state data (some d) out_len bytes L he
  obtain ⟨d1, st, hd, hv, -, ht, hch, hrun, hp, hb⟩ :=
    qoi_encode_state_final data (some d) out_len st1 hs
  injection hd with hd
  subst hd
  obtain ⟨⟨-, hpp⟩, -, -, hr0, hcov, -⟩ := ht
  have hr : st.run = 0 := hr0 rfl
  refine ⟨st1, hs, ?_, ?_, by rw [hrun, hr]⟩
  · rw [hb, hp, hch]
    apply List.take_left'
    simp only [List.length_append, qoi_padding, List.length_cons, List.length_nil]
    omega
  · rw [hch]
    omega

/-- C14 at the 2x1 RGBA image (10,20,30,255), (50,60,70,255): the call
returns and its chunks stand for 2 pixels. -/
theorem pixel_coverage_witness :
    ∃ st1, qoi_encode_state (lit [10, 20, 30, 255, 50, 60, 70, 255]) (some ⟨2, 1, 4, 0⟩) (some 0) =
        Res.ok st1 ∧
      st1.bytes.take st1.p = header_bytes ⟨2, 1, 4, 0⟩ ++ chunk_bytes st1.chunks ++ qoi_padding ∧
      covered st1.chunks = 2 * 1 ∧ st1.run = 0 :=
  pixel_coverage (lit [10, 20, 30, 255, 50, 60, 70, 255]) ⟨2, 1, 4, 0⟩ (some 0) (by decide)
    (by decide) (by decide) (by decide) (by decide) (by decide) (by decide)

/-- C15 (chunk selection): in an iteration whose pixel `px` is neither
absorbed into a run nor an Index hit (and with room for six bytes at the
cursor), `encode_pixel` appends, after the flush of a pending run, exactly
one chunk: an RGBA chunk (5 bytes) iff the alpha differs from the previous
pixel; otherwise a Diff chunk (1 byte) iff the signed wrapping differences
dr, dg, db are all in [-2, 1]; otherwise a Luma chunk (2 bytes) iff dg is in
[-32, 31] and dr - dg, db - dg are in [-8, 7]; otherwise an RGB chunk
(4 bytes). -/
theorem chunk_selection (c px_end : Nat) (data : go_bytes) (pos : Nat) (st : EncState)
    (px : qoi_rgba_t) (hrd : read_pixel c data pos st.px = some px)
    (hnr : px.v ≠ st.px_prev.v) (hmiss : (st.index (QOI_COLOR_HASH px % 64)).v ≠ px.v)
    (hroom : st.p + 6 ≤ st.bytes.length) :
    ∃ st1 ch, encode_pixel c px_end data pos st = some st1 ∧
      st1.chunks = st.chunks ++ (if st.run > 0 then [run_chunk st.run] else []) ++ [ch] ∧
      (ch.kind = ChunkKind.rgba ↔ px.rgba.a ≠ st.px_prev.rgba.a) ∧
      (ch.kind = ChunkKind.diff ↔
        px.rgba.a = st.px_prev.rgba.a ∧ fits_diff st.px_prev.rgba px.rgba) ∧
      (ch.kind = ChunkKind.luma ↔
        px.rgba.a = st.px_prev.rgba.a ∧ ¬ fits_diff st.px_prev.rgba px.rgba ∧
          fits_luma st.px_prev.rgba px.rgba) ∧
      (ch.kind = ChunkKind.rgb ↔
        px.rgba.a = st.px_prev.rgba.a ∧ ¬ fits_diff st.px_prev.rgba px.rgba ∧
          ¬ fits_luma st.px_prev.rgba px.rgba) ∧
      ch.bytes.length = kind_size ch.kind := by
  obtain ⟨st1, hs⟩ := encode_pixel_total_of_read c px_end data pos st px hrd hroom
  obtain ⟨px1, hrd1, he⟩ := encode_pixel_eq_step _ _ _ _ _ _ hs
  rw [hrd] at hrd1
  injection hrd1 with hrd1
  subst hrd1
  have hch : st1.chunks =
      st.chunks ++ (if st.run > 0 then [run_chunk st.run] else []) ++
        [explicit_chunk st.px_prev px] := by
    rw [he, step_pure_chunks]
    unfold step_chunks lookup_chunk
    rw [if_neg hnr, if_neg hmiss, List.append_assoc]
  exact ⟨st1, explicit_chunk st.px_prev px, hs, hch, explicit_chunk_kind st.px_prev px⟩

/-- C15 at the first pixel (5,8,3,255) of a 1x1 RGBA image: its chunk is a
Luma chunk of two bytes. -/
theorem chunk_selection_witness :
    ∃ st1 ch, encode_pixel 4 0 (lit [5, 8, 3, 255]) 0 (start_state ⟨1, 1, 4, 0⟩) = some st1 ∧
      st1.chunks = (start_state ⟨1, 1, 4, 0⟩).chunks ++
        (if (start_state ⟨1, 1, 4, 0⟩).run > 0 then [run_chunk (start_state ⟨1, 1, 4, 0⟩).run]
          else []) ++ [ch] ∧
      (ch.kind = ChunkKind.rgba ↔ (255 : Nat) ≠ (start_state ⟨1, 1, 4, 0⟩).px_prev.rgba.a) ∧
      (ch.kind = ChunkKind.diff ↔
        (255 : Nat) = (start_state ⟨1, 1, 4, 0⟩).px_prev.rgba.a ∧
          fits_diff (start_state ⟨1, 1, 4, 0⟩).px_prev.rgba ⟨5, 8, 3, 255⟩) ∧
      (ch.kind = ChunkKind.luma ↔
        (255 : Nat) = (start_state ⟨1, 1, 4, 0⟩).px_prev.rgba.a ∧
          ¬ fits_diff (start_state ⟨1, 1, 4, 0⟩).px_prev.rgba ⟨5, 8, 3, 255⟩ ∧
          fits_luma (start_state ⟨1, 1, 4, 0⟩).px_prev.rgba ⟨5, 8, 3, 255⟩) ∧
      (ch.kind = ChunkKind.rgb ↔
        (255 : Nat) = (start_state ⟨1, 1, 4, 0⟩).px_prev.rgba.a ∧
          ¬ fits_diff (start_state ⟨1, 1, 4, 0⟩).px_prev.rgba ⟨5, 8, 3, 255⟩ ∧
          ¬ fits_luma (start_state ⟨1, 1, 4, 0⟩).px_prev.rgba ⟨5, 8, 3, 255⟩) ∧
      ch.bytes.length = kind_size ch.kind :=
  chunk_selection 4 0 (lit [5, 8, 3, 255]) 0 (start_state ⟨1, 1, 4, 0⟩) ⟨⟨5, 8, 3, 255⟩, 255⟩
    (by decide) (by decide) (by decide) (by decide)

/-- C16 (per-chunk round trip): for every previous pixel and current pixel
with channel values below 256 (and room for five bytes at the cursor), the
explicit-encoding step writes one Diff, Luma, RGB or RGBA chunk at the
cursor, and its bytes decode, under the per-chunk rules of the specification
applied to the previous pixel, to exactly the channels of the current
pixel. -/
theorem explicit_round_trip (st : EncState) (px : qoi_rgba_t)
    (hpx : px.rgba.r < 256 ∧ px.rgba.g < 256 ∧ px.rgba.b < 256 ∧ px.rgba.a < 256)
    (hprev : st.px_prev.rgba.r < 256 ∧ st.px_prev.rgba.g < 256 ∧ st.px_prev.rgba.b < 256 ∧
      st.px_prev.rgba.a < 256)
    (hroom : st.p + 5 ≤ st.bytes.length) :
    ∃ st1 ch, encode_explicit st px = some st1 ∧ st1.chunks = st.chunks ++ [ch] ∧
      st1.bytes = st.bytes.take st.p ++ ch.bytes ++ st.bytes.drop (st.p + ch.bytes.length) ∧
      (ch.kind = ChunkKind.diff ∨ ch.kind = ChunkKind.luma ∨ ch.kind = ChunkKind.rgb ∨
        ch.kind = ChunkKind.rgba) ∧
      ∀ cache, decode_chunks 1 1 ch.bytes { prev := st.px_prev.rgba, cache := cache } =
        some ([px.rgba], []) := by
  obtain ⟨st1, hs⟩ := encode_explicit_total st px hroom
  have he := encode_explicit_eq st st1 px hs
  refine ⟨st1, explicit_chunk st.px_prev px, hs, by rw [he]; rfl, by rw [he]; rfl, ?_,
    fun cache => explicit_chunk_decodes st.px_prev px hpx hprev cache⟩
  obtain ⟨k1, k2, k3, k4, -⟩ := explicit_chunk_kind st.px_prev px
  by_cases ha : px.rgba.a = st.px_prev.rgba.a
  · by_cases hd : fits_diff st.px_prev.rgba px.rgba
    · exact Or.inl (k2.mpr ⟨ha, hd⟩)
    · by_cases hl : fits_luma st.px_prev.rgba px.rgba
      · exact Or.inr (Or.inl (k3.mpr ⟨ha, hd, hl⟩))
      · exact Or.inr (Or.inr (Or.inl (k4.mpr ⟨ha, hd, hl⟩)))
  · exact Or.inr (Or.inr (Or.inr (k1.mpr ha)))

/-- C16 at the previous pixel (0,0,0,255) and the current pixel (5,8,3,255)
in the start state of a 1x1 RGBA image. -/
theorem explicit_round_trip_witness :
    ∃ st1 ch, encode_explicit (start_state ⟨1, 1, 4, 0⟩) ⟨⟨5, 8, 3, 255⟩, 255⟩ = some st1 ∧
      st1.chunks = (start_state ⟨1, 1, 4, 0⟩).chunks ++ [ch] ∧
      st1.bytes = (start_state ⟨1, 1, 4, 0⟩).bytes.take (start_state ⟨1, 1, 4, 0⟩).p ++
        ch.bytes ++ (start_state ⟨1, 1, 4, 0⟩).bytes.drop
          ((start_state ⟨1, 1, 4, 0⟩).p + ch.bytes.length) ∧
      (ch.kind = ChunkKind.diff ∨ ch.kind = ChunkKind.luma ∨ ch.kind = ChunkKind.rgb ∨
        ch.kind = ChunkKind.rgba) ∧
      ∀ cache, decode_chunks 1 1 ch.bytes
          { prev := (start_state ⟨1, 1, 4, 0⟩).px_prev.rgba, cache := cache } =
        some ([(⟨⟨5, 8, 3, 255⟩, 255⟩ : qoi_rgba_t).rgba], []) :=
  explicit_round_trip (start_state ⟨1, 1, 4, 0⟩) ⟨⟨5, 8, 3, 255⟩, 255⟩ (by decide) (by decide)
    (by decide)

/-- C17 fails: the scalar of a pixel is not the packing of its channels.
The initial previous pixel has channels (0,0,0,255) and scalar 0, not 255;
`fromBytes` gives (10,20,30,255) the scalar 255, not 0x0a141eff, and gives
the different pixel (50,60,70,255) the same scalar; the three-channel path
leaves the scalar of (1,2,3,255) at 0. -/
theorem scalar_is_not_packing :
    (∀ d, (init_state d).px_prev = ⟨⟨0, 0, 0, 255⟩, 0⟩) ∧ pack ⟨0, 0, 0, 255⟩ = 255 ∧
    fromBytes [10, 20, 30, 255] = some ⟨⟨10, 20, 30, 255⟩, 255⟩ ∧
    pack ⟨10, 20, 30, 255⟩ = 0x0a141eff ∧
    (fromUint32 0x0a141eff).rgba = ⟨10, 20, 30, 255⟩ ∧
    fromBytes [50, 60, 70, 255] = some ⟨⟨50, 60, 70, 255⟩, 255⟩ ∧
    (state_after (lit [1, 2, 3]) ⟨1, 1, 3, 0⟩ 1).map (fun st => st.px) = some ⟨⟨1, 2, 3, 255⟩, 0⟩ ∧
    pack ⟨1, 2, 3, 255⟩ = 0x010203ff :=
  ⟨fun _ => rfl, by decide, by decide, by decide, by decide, by decide, by decide, by decide⟩

/-- C18 fails for every value above 255: `qoi_write_32` followed by
`qoi_read_32` at the same position advances both cursors by 4 but returns
v mod 256, and `bytes_to_uint32` of the four bytes of `uint32_to_bytes(v)`
is v mod 256 as well, because the shifts and sums of the reading side are
8-bit operations. -/
theorem read_32_returns_low_byte (bytes : List Nat) (p v : Nat) (h : p + 4 ≤ bytes.length) :
    (∃ bytes1, qoi_write_32 bytes p v = some (bytes1, p + 4) ∧
      qoi_read_32 bytes1 p = some (v % 256, p + 4)) ∧
    ∃ b0 b1 b2 b3, uint32_to_bytes v = [b0, b1, b2, b3] ∧
      bytes_to_uint32 b0 b1 b2 b3 = v % 256 := by
  have elow : u8 (0x000000ff &&& v) = v % 256 := by
    have e0 : (0x000000ff : Nat) = 2 ^ 8 - 1 := by decide
    unfold u8
    rw [Nat.and_comm, e0, Nat.and_pow_two_sub_one_eq_mod]
    omega
  constructor
  · refine ⟨(((bytes.set p (u8 ((0xff000000 &&& v) >>> 24))).set (p + 1)
        (u8 ((0x00ff0000 &&& v) >>> 16))).set (p + 1 + 1)
        (u8 ((0x0000ff00 &&& v) >>> 8))).set (p + 1 + 1 + 1) (u8 (0x000000ff &&& v)), ?_, ?_⟩
    · unfold qoi_write_32 write_byte
      simp only [List.length_set, Option.bind_eq_bind]
      rw [if_pos (by omega)]
      simp only [Option.some_bind, List.length_set]
      rw [if_pos (by omega)]
      simp only [Option.some_bind, List.length_set]
      rw [if_pos (by omega)]
      simp only [Option.some_bind, List.length_set]
      rw [if_pos (by omega)]
      simp only [Option.some_bind]
    · unfold qoi_read_32
      have hl : ∀ (a b c e : Nat), ((((bytes.set p a).set (p + 1) b).set (p + 1 + 1) c).set
          (p + 1 + 1 + 1) e).length = bytes.length := by
        intro a b c e
        simp only [List.length_set]
      simp only [Option.bind_eq_bind]
      rw [List.getElem?_eq_getElem (by rw [hl]; omega),
        List.getElem?_eq_getElem (by rw [hl]; omega),
        List.getElem?_eq_getElem (by rw [hl]; omega),
        List.getElem?_eq_getElem (by rw [hl]; omega)]
      simp only [Option.some_bind, Option.some.injEq, Prod.mk.injEq, and_true]
      rw [List.getElem_set_self]
      rw [elow]
      unfold shl8 u8 u32
      simp only [Nat.shiftLeft_eq]
      omega
  · refine ⟨_, _, _, _, rfl, ?_⟩
    rw [bytes_to_uint32_eq, elow]
    omega

/-- C18 at the value 0x01020304 in a four-byte buffer: the bytes written
are 1,2,3,4 and the value read back is 4. -/
theorem read_32_returns_low_byte_witness :
    (∃ bytes1, qoi_write_32 [0, 0, 0, 0] 0 0x01020304 = some (bytes1, 0 + 4) ∧
      qoi_read_32 bytes1 0 = some (0x01020304 % 256, 0 + 4)) ∧
    qoi_write_32 [0, 0, 0, 0] 0 0x01020304 = some ([1, 2, 3, 4], 4) ∧
    qoi_read_32 [1, 2, 3, 4] 0 = some (4, 4) :=
  ⟨(read_32_returns_low_byte [0, 0, 0, 0] 0 0x01020304 (by decide)).1, by decide, by decide⟩

/-- C19 (three-channel output): for every accepted three-channel input with
n = width*height pixels the reported length is 22 + ceil(n/62), and the
written bytes are the header, floor(n/62) bytes 0xfd, one byte
0xc0 + (n mod 62) - 1 when n mod 62 is not 0, and the end marker, whatever
the pixel values; any other accepted call with the same descriptor returns
the same buffer and length. -/
theorem rgb_body_is_runs (data : go_bytes) (d : qoi_desc) (out_len : Option Nat)
    (bytes : List Nat) (L : Nat) (hc3 : d.channels = 3)
    (h : qoi_encode data (some d) out_len = Res.ok (bytes, L)) :
    L = 22 + (d.width * d.height + 61) / 62 ∧
    bytes.take L = header_bytes d ++ List.replicate (d.width * d.height / 62) 0xfd ++
      (if d.width * d.height % 62 = 0 then [] else [0xc0 + d.width * d.height % 62 - 1]) ++
      qoi_padding ∧
    ∀ data2 out2 bytes2 L2, qoi_encode data2 (some d) out2 = Res.ok (bytes2, L2) →
      bytes2 = bytes ∧ L2 = L := by
  obtain ⟨hL, hb⟩ := rgb_output data d out_len bytes L hc3 h
  refine ⟨hL, ?_, ?_⟩
  · rw [hb]
    apply List.take_left'
    rw [hL]
    simp only [List.length_append, header_bytes_length, List.length_replicate, qoi_padding,
      List.length_cons, List.length_nil]
    split_ifs with h0
    · simp only [List.length_nil]; omega
    · simp only [List.length_cons, List.length_nil]; omega
  · intro data2 out2 bytes2 L2 h2
    obtain ⟨hL2, hb2⟩ := rgb_output data2 d out2 bytes2 L2 hc3 h2
    have e : L2 = L := by rw [hL, hL2]
    refine ⟨?_, e⟩
    rw [hb, hb2, e]

/-- C19 at the 1x1 three-channel image [1,2,3]: 23 bytes, the body is the
single Run byte 0xc0. -/
theorem rgb_body_is_runs_witness :
    qoi_encode (lit [1, 2, 3]) (some ⟨1, 1, 3, 0⟩) (some 0) =
        Res.ok ([0, 0, 0, 102, 0, 0, 0, 1, 0, 0, 0, 1, 3, 0, 192, 0, 0, 0, 0, 0, 0, 0, 1,
          0, 0, 0], 23) ∧
      23 = 22 + (1 * 1 + 61) / 62 :=
  ⟨by decide,
    (rgb_body_is_runs (lit [1, 2, 3]) ⟨1, 1, 3, 0⟩ (some 0)
      [0, 0, 0, 102, 0, 0, 0, 1, 0, 0, 0, 1, 3, 0, 192, 0, 0, 0, 0, 0, 0, 0, 1, 0, 0, 0] 23
      rfl (by decide)).1⟩

/-- C20 (loop bounds): for every descriptor that passes the guard,
width*height < 400,000,000 and width*height*channels < 2^32; the 32-bit
values `px_len` and `px_end` equal width*height*channels and
width*height*channels - channels without wrapping; the loop header runs
exactly width*height iterations; and a pixel loop that ends has executed
its body exactly width*height times. -/
theorem loop_bounds_exact (d : qoi_desc) (hw : 0 < d.width) (hh : 0 < d.height)
    (hc : d.channels = 3 ∨ d.channels = 4) (hcs : d.colorspace ≤ 1)
    (hpx : d.height < 400000000 / d.width) :
    d.width * d.height < 400000000 ∧ d.width * d.height * d.channels < 4294967296 ∧
    px_len_of d = d.width * d.height * d.channels ∧
    px_end_of d + d.channels = d.width * d.height * d.channels ∧
    loop_count d.channels (px_len_of d) (px_len_of d) 0 = some (d.width * d.height) ∧
    ∀ data st, encode_pixels data d = Res.ok st →
      state_after data d (d.width * d.height) = some st := by
  have hv : Valid d := ⟨hw, hh, hc, hcs, hpx⟩
  have hn := hv.pixels_lt
  have hpl := px_len_of_eq hv
  obtain ⟨hpe, hpe2⟩ := px_end_of_eq hv
  have hnc : d.width * d.height * d.channels < 4294967296 := by
    generalize d.width * d.height = n at hn ⊢
    rcases hc with hc | hc <;> rw [hc] <;> omega
  have hfuel : d.width * d.height ≤ 0 + d.width * d.height * d.channels := by
    generalize d.width * d.height = n
    rcases hc with hc | hc <;> rw [hc] <;> omega
  refine ⟨hn, hnc, hpl, by omega, ?_, fun data st h => encode_pixels_state_after data d st hv h⟩
  rw [hpl]
  have key := loop_count_eq d.channels (d.width * d.height) (by omega) hnc
    (d.width * d.height * d.channels) 0 (Nat.zero_le _) hfuel
  rw [Nat.zero_mul] at key
  exact key

/-- C20 at the descriptor 2x1 with four channels: `px_len` is 8, `px_end`
is 4 and the loop runs 2 iterations. -/
theorem loop_bounds_exact_witness :
    px_len_of ⟨2, 1, 4, 0⟩ = 2 * 1 * 4 ∧ px_end_of ⟨2, 1, 4, 0⟩ + 4 = 2 * 1 * 4 ∧
      loop_count 4 (px_len_of ⟨2, 1, 4, 0⟩) (px_len_of ⟨2, 1, 4, 0⟩) 0 = some (2 * 1) :=
  have h := loop_bounds_exact ⟨2, 1, 4, 0⟩ (by decide) (by decide) (by decide) (by decide)
    (by decide)
  ⟨h.2.2.1, h.2.2.2.1, h.2.2.2.2.1⟩

end QOI
